import Mathlib

/-!
Verification of the FA Logistics catalog core: CSV ingestion, price parsing,
fuzzy search scoring, filtering and product prioritization, embedded from
`app.js` and `staff.js`.  Strings are modelled as `List Char`; JavaScript
numbers that only ever hold integral values are modelled as `Int`/`Nat`, and
fuzzy-match weights (2, 1.5, 0.7, …) as exact rationals.
-/

namespace FAL

/-- Strings are modelled as lists of characters. -/
abbrev Str := List Char

/-- The whitespace characters relevant to the feed (JS `\s` restricted to the
characters that can actually occur here): space, tab, line feed, carriage
return, by code point. -/
def isWs (c : Char) : Bool := c.toNat = 32 || c.toNat = 9 || c.toNat = 10 || c.toNat = 13

/-- JS `.` in a regexp matches everything except line terminators. -/
def notNL (c : Char) : Bool := !(c.toNat = 10 || c.toNat = 13)

/-- JS `\d`: the decimal digits 0-9. -/
def isDigitC (c : Char) : Bool := 48 ≤ c.toNat && c.toNat ≤ 57

/-- JS `String.prototype.trim` (both ends). -/
def trim (s : Str) : Str := ((s.dropWhile isWs).reverse.dropWhile isWs).reverse

/-- JS `String.prototype.toLowerCase`, character by character. -/
def lowerStr (s : Str) : Str := s.map Char.toLower

/-- Numeric value of a string of decimal digits (most significant first). -/
def digitsVal (ds : Str) : Nat := ds.foldl (fun a c => a * 10 + (c.toNat - 48)) 0

def isHexDigit (c : Char) : Bool :=
  isDigitC c || (97 ≤ c.toNat && c.toNat ≤ 102) || (65 ≤ c.toNat && c.toNat ≤ 70)

def hexVal (c : Char) : Nat :=
  if isDigitC c then c.toNat - 48
  else if 97 ≤ c.toNat then c.toNat - 87
  else c.toNat - 55

/-- A leading `0x`/`0X` selects base 16 in radix-free JS `parseInt`. -/
def hexPrefixBody : Str → Option Str
  | c0 :: c1 :: t => if c0 = '0' && (c1 = 'x' || c1 = 'X') then some t else none
  | _ => none

/-- Maximal leading run of decimal digits; no digits gives `NaN` (`none`). -/
def decDigitsPart (t : Str) : Option Nat :=
  let ds := t.takeWhile isDigitC
  if ds = [] then none else some (digitsVal ds)

/-- The digit-prefix part of JS `parseInt` without an explicit radix: an
optional `0x`/`0X` prefix selects base 16, otherwise the maximal leading run
of decimal digits is parsed. -/
def jsParseIntCore (s : Str) : Option Nat :=
  match hexPrefixBody s with
  | some t =>
      let ds := t.takeWhile isHexDigit
      if ds = [] then none else some (ds.foldl (fun a c => a * 16 + hexVal c) 0)
  | none => decDigitsPart s

/-- JS `parseInt(s)` (no radix argument): skip leading whitespace, optional
sign, then `jsParseIntCore`.  `none` models `NaN`. -/
def jsParseInt (s : Str) : Option Int :=
  match s.dropWhile isWs with
  | [] => (jsParseIntCore []).map (fun n => (n : Int))
  | c :: t =>
    if c = '-' then (jsParseIntCore t).map (fun n => -(n : Int))
    else if c = '+' then (jsParseIntCore t).map (fun n => (n : Int))
    else (jsParseIntCore (c :: t)).map (fun n => (n : Int))

/-- JS `parseInt(s, 10)`: like `jsParseInt` but with no hexadecimal prefix
detection. -/
def jsParseIntDec (s : Str) : Option Int :=
  match s.dropWhile isWs with
  | [] => (decDigitsPart []).map (fun n => (n : Int))
  | c :: t =>
    if c = '-' then (decDigitsPart t).map (fun n => -(n : Int))
    else if c = '+' then (decDigitsPart t).map (fun n => (n : Int))
    else (decDigitsPart (c :: t)).map (fun n => (n : Int))

/-- `app.js` `parsePriceValue`: `parseInt(priceStr.replace(/[₦,]/g, '')) || 0`. -/
def parsePriceValueApp (s : Str) : Int :=
  (jsParseInt (s.filter (fun c => !(c = '₦' || c = ',')))).getD 0

/-- `staff.js` `parsePriceValue`: `String(priceStr || '').replace(/[^\d]/g, '')`
then `parseInt(digits, 10) || 0`. -/
def parsePriceValueStaff (s : Str) : Int :=
  (jsParseIntDec (s.filter isDigitC)).getD 0

/-- The price semantics stated by the specification: strip every non-digit
character and read the remaining digits as one base-10 integer; empty or
all-non-digit input yields 0. -/
def specPrice (s : Str) : Int :=
  let ds := s.filter isDigitC
  if ds = [] then 0 else (digitsVal ds : Int)

/-! ### Generic string operations -/

/-- JS `String.prototype.includes`: `n` occurs contiguously in `s`. -/
def strContains (s n : Str) : Bool :=
  match s with
  | [] => decide (n = [])
  | c :: t => n.isPrefixOf (c :: t) || strContains t n

/-- The greedy character-subsequence scan in `fuzzyMatch`: walk the field
left to right, advancing in the pattern on every character match. -/
def subseqCheck : Str → Str → Bool
  | _, [] => true
  | [], _ :: _ => false
  | c :: s, q :: qs => if c = q then subseqCheck s qs else subseqCheck s (q :: qs)

/-- JS `String.prototype.split(/\s+/)`: tokens between maximal whitespace
runs, with an empty leading (resp. trailing) token when the string starts
(resp. ends) with whitespace. -/
def splitWs (s : Str) : List Str :=
  let w := s.takeWhile (fun c => !isWs c)
  match h : s.dropWhile (fun c => !isWs c) with
  | [] => [w]
  | _ :: t => w :: splitWs (t.dropWhile isWs)
termination_by s.length
decreasing_by
  calc (t.dropWhile isWs).length ≤ t.length := (List.dropWhile_sublist isWs).length_le
    _ < (s.dropWhile (fun c => !isWs c)).length := by rw [h]; simp
    _ ≤ s.length := (List.dropWhile_sublist _).length_le

/-- JS `String.prototype.split(sep)` for a single-character separator. -/
def jsSplit (sep : Char) : Str → List Str
  | [] => [[]]
  | c :: t =>
    if c = sep then [] :: jsSplit sep t
    else
      match jsSplit sep t with
      | s :: rest => (c :: s) :: rest
      | [] => [[c]]

/-- Replace every `\n` by a space (JS `replace(/\n/g, ' ')`). -/
def collapseNL (s : Str) : Str := s.map (fun c => if c = '\n' then ' ' else c)

/-! ### CSV tokenizer (row splitter) and field parser, common to both files -/

/-- Character loop of the row splitter in `parseCSV`: quotes toggle the
in-quotes state and are kept; an (unquoted) `\n` or `\r\n` ends the row; a
row is emitted only when its trimmed text is non-empty. -/
def splitRowsGo : Str → Bool → Str → List Str
  | [], _, cur => if trim cur = [] then [] else [cur]
  | [c], inQuotes, cur =>
    if c = '"' then splitRowsGo [] (!inQuotes) (cur ++ [c])
    else if c = '\n' && !inQuotes then
      (if trim cur = [] then [] else [cur]) ++ splitRowsGo [] inQuotes []
    else splitRowsGo [] inQuotes (cur ++ [c])
  | c :: r1 :: rest2, inQuotes, cur =>
    if c = '"' then splitRowsGo (r1 :: rest2) (!inQuotes) (cur ++ [c])
    else if c = '\n' && !inQuotes then
      (if trim cur = [] then [] else [cur]) ++ splitRowsGo (r1 :: rest2) inQuotes []
    else if c = '\r' && r1 = '\n' && !inQuotes then
      (if trim cur = [] then [] else [cur]) ++ splitRowsGo rest2 inQuotes []
    else splitRowsGo (r1 :: rest2) inQuotes (cur ++ [c])

/-- Split raw feed text into logical rows (`parseCSV`, first loop). -/
def splitRows (text : Str) : List Str := splitRowsGo text false []

/-- Character loop of `parseCSVRow`: a doubled quote is one literal quote, a
lone quote toggles the in-quotes state and is dropped, an unquoted comma ends
the field, and every emitted field is trimmed. -/
def parseCSVRowGo : Str → Bool → Str → List Str
  | [], _, cur => [trim cur]
  | [c], inQuotes, cur =>
    if c = '"' then parseCSVRowGo [] (!inQuotes) cur
    else if c = ',' && !inQuotes then trim cur :: parseCSVRowGo [] inQuotes []
    else parseCSVRowGo [] inQuotes (cur ++ [c])
  | c :: r1 :: rest2, inQuotes, cur =>
    if c = '"' then
      if r1 = '"' then parseCSVRowGo rest2 inQuotes (cur ++ ['"'])
      else parseCSVRowGo (r1 :: rest2) (!inQuotes) cur
    else if c = ',' && !inQuotes then trim cur :: parseCSVRowGo (r1 :: rest2) inQuotes []
    else parseCSVRowGo (r1 :: rest2) inQuotes (cur ++ [c])

/-- `parseCSVRow` (identical in `app.js` and `staff.js`). -/
def parseCSVRow (row : Str) : List Str := parseCSVRowGo row false []

/-- The defensive double-unwrap in the record builder:
`f.replace(/^"(.*)"{1}$/, '$1').trim()` (the regexp matches only when the
field starts and ends with a quote and the interior has no line break). -/
def cleanField (f : Str) : Str :=
  trim
    (if 2 ≤ f.length ∧ f.head? = some '"' ∧ f.getLast? = some '"' ∧
        ((f.drop 1).dropLast.all notNL) = true
     then (f.drop 1).dropLast else f)

/-- Index of the header column whose lowercased, trimmed text is `sameday`
(`findIndex`, `none` for -1). -/
def sameDayIdxOfRows (rows : List Str) : Option Nat :=
  (parseCSVRow (rows.headD [])).findIdx? (fun h => decide (trim (lowerStr h) = "sameday".data))

/-! ### Variant parsing

`app.js` matches each `|`-separated entry against `/(.+?)\s*—\s*(₦[\d,]+)/`,
`staff.js` against `/(.+?)\s*—\s*(.+)/`.  The matchers below implement the
backtracking search of those regexps operationally: the lazy group 1 grows one
(non-line-break) character at a time, the start position advances on failure,
`\s*` is greedy with backtracking, and group 2 is read greedily. -/

structure Variant where
  name : Str
  price : Str
  priceValue : Int
deriving DecidableEq, Repr

def isDigitOrComma (c : Char) : Bool := isDigitC c || c = ','

/-- Try to match `\s*—\s*(₦[\d,]+)` at the start of `rest` (the part of the
app regexp after the lazy group); returns group 2.  The `\s*` pieces need no
backtracking here because neither `—` nor `₦` is a whitespace character. -/
def appTail (rest : Str) : Option Str :=
  match rest.dropWhile isWs with
  | [] => none
  | c :: r2 =>
    if c = '—' then
      match r2.dropWhile isWs with
      | [] => none
      | c2 :: r4 =>
        if c2 = '₦' then
          if r4.takeWhile isDigitOrComma = [] then none
          else some ('₦' :: r4.takeWhile isDigitOrComma)
        else none
    else none

/-- Grow the lazy group 1 (`(.+?)`, no line breaks) one character at a time,
testing `appTail` after each step. -/
def appLazy : Str → Str → Option (Str × Str)
  | g1, rest =>
    match appTail rest with
    | some g2 => some (g1, g2)
    | none =>
      match rest with
      | [] => none
      | c :: t => if notNL c then appLazy (g1 ++ [c]) t else none

/-- Leftmost search of the app variant regexp over a whole entry. -/
def appSearch : Str → Option (Str × Str)
  | [] => none
  | c :: t =>
    match (if notNL c then appLazy [c] t else none) with
    | some m => some m
    | none => appSearch t

/-- Backtracking of the second `\s*` of the staff regexp: `j` counts the
whitespace characters it keeps; `(.+)` must then match at least one
non-line-break character.  Tries `j = k, k-1, …, 0`. -/
def staffTailBack (r2 : Str) : Nat → Option Str
  | 0 =>
    match r2 with
    | [] => none
    | c :: _ => if notNL c then some (r2.takeWhile notNL) else none
  | j + 1 =>
    match r2.drop (j + 1) with
    | [] => staffTailBack r2 j
    | c :: _ =>
      if notNL c then some ((r2.drop (j + 1)).takeWhile notNL)
      else staffTailBack r2 j

/-- Try to match `\s*—\s*(.+)` at the start of `rest`; returns group 2. -/
def staffTail (rest : Str) : Option Str :=
  match rest.dropWhile isWs with
  | [] => none
  | c :: r2 =>
    if c = '—' then staffTailBack r2 (r2.takeWhile isWs).length
    else none

/-- Lazy group 1 growth for the staff regexp. -/
def staffLazy : Str → Str → Option (Str × Str)
  | g1, rest =>
    match staffTail rest with
    | some g2 => some (g1, g2)
    | none =>
      match rest with
      | [] => none
      | c :: t => if notNL c then staffLazy (g1 ++ [c]) t else none

/-- Leftmost search of the staff variant regexp over a whole entry. -/
def staffSearch : Str → Option (Str × Str)
  | [] => none
  | c :: t =>
    match (if notNL c then staffLazy [c] t else none) with
    | some m => some m
    | none => staffSearch t

/-- `app.js` `parseVariants`: split the blob on `|` and keep the entries
matching `/(.+?)\s*—\s*(₦[\d,]+)/`. -/
def parseVariantsApp (variantsStr : Str) : List Variant :=
  if trim variantsStr = [] then []
  else
    (jsSplit '|' variantsStr).filterMap (fun part =>
      (appSearch part).map (fun m =>
        { name := trim m.1, price := trim m.2, priceValue := parsePriceValueApp m.2 }))

/-- `staff.js` `parseVariants`: split the blob on `|` and keep the entries
matching `/(.+?)\s*—\s*(.+)/`. -/
def parseVariantsStaff (variantsStr : Str) : List Variant :=
  if trim variantsStr = [] then []
  else
    (jsSplit '|' variantsStr).filterMap (fun part =>
      (staffSearch part).map (fun m =>
        { name := trim m.1, price := trim m.2, priceValue := parsePriceValueStaff m.2 }))

/-! ### Classifier (categories and emoji), `app.js` only -/

def testAny (n : Str) (ws : List Str) : Bool := ws.any (fun w => strContains n w)

/-- Does `a` followed later by `b` occur in `n` with no line break between
them (the `a.*b` regexp test)? -/
def seqMatchHere (n a b : Str) : Bool :=
  a.isPrefixOf n && strContains ((n.drop a.length).takeWhile notNL) b

def seqMatch (n a b : Str) : Bool :=
  match n with
  | [] => seqMatchHere [] a b
  | _ :: t => seqMatchHere n a b || seqMatch t a b

/-- `categorizeProduct`: ordered keyword rules, first match wins. -/
def categorizeProduct (name : Str) : Str :=
  let n := lowerStr name
  if testAny n ["ring".data, "necklace".data, "earring".data, "bracelet".data,
      "jewelry".data, "jewel".data] then "Jewelry".data
  else if testAny n ["teddy".data, "bear".data, "plush".data, "stuffed".data] then
    "Teddy Bears".data
  else if testAny n ["rose".data, "flower".data, "bouquet".data, "soap flower".data] then
    "Flowers".data
  else if testAny n ["gift basket".data, "gift box".data, "gift set".data,
      "gift hamper".data] then "Gift Baskets".data
  else if testAny n ["pizza".data, "burger".data, "chicken".data, "sandwich".data,
      "pasta".data, "italian".data, "asian".data, "quesadilla".data, "pie".data,
      "sesame".data] then "Food".data
  else if seqMatch n "cake".data "wine".data || seqMatch n "cake".data "champagne".data ||
      seqMatch n "wine".data "cake".data || seqMatch n "wine".data "roses".data then
    "Wine & Treats".data
  else if testAny n ["custom".data, "personalized".data, "photo".data, "print".data,
      "mug".data, "blanket".data, "t-shirt".data, "hoodie".data, "card".data] then
    "Custom Items".data
  else if testAny n ["christmas".data, "xmas".data, "santa".data, "tree".data] then
    "Christmas".data
  else if testAny n ["watch".data, "wristwatch".data] then "Watches".data
  else if testAny n ["key fob".data, "remote".data, "tesla".data, "bmw".data,
      "mercedes".data] then "Car Keys".data
  else if testAny n ["military".data, "army".data, "camo".data, "uniform".data] then
    "Military".data
  else if testAny n ["underwear".data, "boxer".data, "brief".data] then "Underwear".data
  else if testAny n ["wine".data, "chocolate".data, "ferrero".data, "champagne".data] then
    "Wine & Treats".data
  else "Other".data

/-- `getProductEmoji`: ordered keyword rules, first match wins. -/
def getProductEmoji (name : Str) : Str :=
  let n := lowerStr name
  if strContains n "ring".data then "💍".data
  else if strContains n "necklace".data then "📿".data
  else if strContains n "earring".data then "👂".data
  else if strContains n "watch".data then "⌚".data
  else if testAny n ["teddy".data, "bear".data] then "🧸".data
  else if testAny n ["rose".data, "flower".data] then "🌹".data
  else if testAny n ["gift".data, "basket".data] then "🎁".data
  else if strContains n "pizza".data then "🍕".data
  else if strContains n "burger".data then "🍔".data
  else if strContains n "chicken".data then "🍗".data
  else if testAny n ["christmas".data, "xmas".data, "santa".data] then "🎄".data
  else if strContains n "chocolate".data then "🍫".data
  else if strContains n "wine".data then "🍷".data
  else if testAny n ["mug".data, "cup".data] then "☕".data
  else if testAny n ["photo".data, "picture".data] then "📸".data
  else if strContains n "card".data then "💌".data
  else if strContains n "quesadilla".data then "🌮".data
  else if strContains n "pie".data then "🥧".data
  else if strContains n "sesame".data then "🍛".data
  else if strContains n "cake".data then "🎂".data
  else if strContains n "key".data then "🔑".data
  else "📦".data

/-! ### Record builders -/

structure Product where
  id : Nat
  productId : Str
  name : Str
  description : Str
  price : Str
  priceValue : Int
  variants : List Variant
  category : Str
  emoji : Str
  imageUrl : Str
  sameDay : Bool
deriving DecidableEq, Repr

structure StaffProduct where
  productId : Str
  name : Str
  description : Str
  price : Str
  priceValue : Int
  variants : List Variant
  imageUrl : Str
  sameDay : Bool
deriving DecidableEq, Repr

/-- `cleanFields = fields.map(f => f.replace(/^"(.*)"{1}$/, '$1').trim())`. -/
def cleanFieldsOf (row : Str) : List Str := (parseCSVRow row).map cleanField

/-- The strict same-day flag: requires the header column to exist and the
row's (cleaned) cell there to be non-empty and lowercase-equal to `true`. -/
def sameDayFlag (sIdx : Option Nat) (cleanFields : List Str) : Bool :=
  match sIdx with
  | some i =>
    if cleanFields.getD i [] ≠ [] then
      decide (lowerStr (cleanFields.getD i []) = "true".data)
    else false
  | none => false

/-- The cheapest variant: JS `sort((a, b) => a.priceValue - b.priceValue)` is
a stable ascending sort, modelled by `mergeSort`; the `headD` default is only
reachable on an empty variant list, which both callers exclude. -/
def minVariantOf (variants : List Variant) : Variant :=
  (variants.mergeSort (fun a b => decide (a.priceValue ≤ b.priceValue))).headD ⟨[], [], 0⟩

/-- The resolved display price: the trimmed own price field, else (when
variants exist) the cheapest variant's price. -/
def displayPriceOf (dp0 : Str) (variants : List Variant) : Str :=
  if dp0 = [] ∧ variants ≠ [] then (minVariantOf variants).price else dp0

/-- The numeric display price of the app builder. -/
def displayPriceValueApp (dp0 : Str) (variants : List Variant) : Int :=
  if dp0 = [] ∧ variants ≠ [] then (minVariantOf variants).priceValue
  else parsePriceValueApp dp0

/-- The record pushed by the app `parseCSV` loop (with `id := 0`; the running
counter is added by `parseRowsApp`). -/
def mkAppProduct (sIdx : Option Nat) (row : Str) : Product :=
  let cf := cleanFieldsOf row
  { id := 0
    productId := cf.getD 0 []
    name := if cf.getD 1 [] = [] then [] else trim (collapseNL (cf.getD 1 []))
    description :=
      if cf.getD 2 [] ≠ [] ∧ cf.getD 2 [] ≠ "No description".data then
        trim (collapseNL (cf.getD 2 []))
      else []
    price := displayPriceOf (trim (cf.getD 3 [])) (parseVariantsApp (cf.getD 4 []))
    priceValue :=
      displayPriceValueApp (trim (cf.getD 3 [])) (parseVariantsApp (cf.getD 4 []))
    variants := parseVariantsApp (cf.getD 4 [])
    category := categorizeProduct (cf.getD 1 [])
    emoji := getProductEmoji (cf.getD 1 [])
    imageUrl := cf.getD 5 []
    sameDay := sameDayFlag sIdx cf }

/-- Body of the per-row loop of `parseCSV` in `app.js`: `none` exactly when
the row is dropped (fewer than 2 fields, empty first field, or no resolvable
display price). -/
def buildRowApp (sIdx : Option Nat) (row : Str) : Option Product :=
  if 2 ≤ (cleanFieldsOf row).length ∧ (cleanFieldsOf row).getD 0 [] ≠ [] then
    if displayPriceOf (trim ((cleanFieldsOf row).getD 3 []))
        (parseVariantsApp ((cleanFieldsOf row).getD 4 [])) = [] then none
    else some (mkAppProduct sIdx row)
  else none

/-- The per-row loop of `parseCSV` in `app.js`, threading the `productId++`
counter through accepted rows. -/
def parseRowsApp (sIdx : Option Nat) : Nat → List Str → List Product
  | _, [] => []
  | pid, r :: rs =>
    match buildRowApp sIdx r with
    | some p => { p with id := pid } :: parseRowsApp sIdx (pid + 1) rs
    | none => parseRowsApp sIdx pid rs

/-- `parseCSV` in `app.js`: split rows, locate the `sameday` column in the
header row, build a product per accepted data row with ids 1, 2, …. -/
def parseCSVApp (text : Str) : List Product :=
  let rows := splitRows text
  parseRowsApp (sameDayIdxOfRows rows) 1 rows.tail

/-- The numeric display price of the staff builder. -/
def displayPriceValueStaff (dp0 : Str) (variants : List Variant) : Int :=
  if dp0 = [] ∧ variants ≠ [] then (minVariantOf variants).priceValue
  else parsePriceValueStaff dp0

/-- The record pushed by the staff `parseCSV` loop (no id, no category/emoji,
and no `"No description"` sentinel suppression). -/
def mkStaffProduct (sIdx : Option Nat) (row : Str) : StaffProduct :=
  let cf := cleanFieldsOf row
  { productId := cf.getD 0 []
    name := if cf.getD 1 [] = [] then [] else trim (collapseNL (cf.getD 1 []))
    description :=
      if cf.getD 2 [] = [] then [] else trim (collapseNL (cf.getD 2 []))
    price := displayPriceOf (trim (cf.getD 3 [])) (parseVariantsStaff (cf.getD 4 []))
    priceValue :=
      displayPriceValueStaff (trim (cf.getD 3 [])) (parseVariantsStaff (cf.getD 4 []))
    variants := parseVariantsStaff (cf.getD 4 [])
    imageUrl := cf.getD 5 []
    sameDay := sameDayFlag sIdx cf }

/-- Body of the per-row loop of `parseCSV` in `staff.js`. -/
def buildRowStaff (sIdx : Option Nat) (row : Str) : Option StaffProduct :=
  if 2 ≤ (cleanFieldsOf row).length ∧ (cleanFieldsOf row).getD 0 [] ≠ [] then
    if displayPriceOf (trim ((cleanFieldsOf row).getD 3 []))
        (parseVariantsStaff ((cleanFieldsOf row).getD 4 [])) = [] then none
    else some (mkStaffProduct sIdx row)
  else none

/-- `parseCSV` in `staff.js` (no id counter there). -/
def parseCSVStaff (text : Str) : List StaffProduct :=
  let rows := splitRows text
  rows.tail.filterMap (buildRowStaff (sameDayIdxOfRows rows))

/-! ### Search, filters, prioritizer (`app.js`) -/

/-- `fuzzyMatch(str, pattern)`: staged weights 2 / 1.5 / 0.5 / 0. -/
def fuzzyMatch (s p : Str) : ℚ :=
  let sl := lowerStr s
  let pl := lowerStr p
  if strContains sl pl then 2
  else if (splitWs sl).any (fun w => pl.isPrefixOf w) then 1.5
  else if 4 ≤ pl.length then 0
  else if subseqCheck sl pl then 0.5
  else 0

/-- Round `A / B` (`B ≥ 1`) to the nearest integer, ties to even — the
rounding step of IEEE-754 round-to-nearest-even. -/
def roundNE (A B : Nat) : Nat :=
  let qt := A / B
  let r := A % B
  if 2 * r < B then qt
  else if B < 2 * r then qt + 1
  else if qt % 2 = 0 then qt else qt + 1

/-- Fuelled binary logarithm (structural recursion so that it evaluates
inside the kernel); `nlog2 n` is `⌊log₂ n⌋` for `n ≥ 1`. -/
def log2F : Nat → Nat → Nat
  | 0, _ => 0
  | fuel + 1, n => if 2 ≤ n then log2F fuel (n / 2) + 1 else 0

def nlog2 (n : Nat) : Nat := log2F n n

/-- Round the positive rational `a / b` (`a, b ≥ 1`) to 53 significant bits,
round-to-nearest ties-to-even: the IEEE-754 binary64 rounding of JS number
arithmetic.  The exponent is unbounded, which agrees with binary64 on the
magnitudes reached by search scores (far from overflow and subnormals). -/
def flPos (a b : Nat) : ℚ :=
  let la := nlog2 a
  let lb := nlog2 b
  let ge : Bool :=
    if lb ≤ la then decide (b * 2 ^ (la - lb) ≤ a) else decide (b ≤ a * 2 ^ (lb - la))
  let e : Int := if ge then (la : Int) - (lb : Int) else (la : Int) - (lb : Int) - 1
  if 52 ≤ e then
    ((roundNE a (b * 2 ^ (e - 52).toNat) * 2 ^ (e - 52).toNat : Nat) : ℚ)
  else
    ((roundNE (a * 2 ^ (52 - e).toNat) b : Nat) : ℚ) / ((2 ^ (52 - e).toNat : Nat) : ℚ)

/-- Binary64 rounding of a rational. -/
def fl (q : ℚ) : ℚ :=
  if q = 0 then 0
  else if 0 < q then flPos q.num.toNat q.den
  else -flPos (-q.num).toNat q.den

/-- JS `+` on numbers: exact sum, then binary64 rounding. -/
def jsAdd (x y : ℚ) : ℚ := fl (x + y)

/-- JS `*` on numbers: exact product, then binary64 rounding. -/
def jsMul (x y : ℚ) : ℚ := fl (x * y)

/-- The per-product score computed inside `performSearch`, with every `+`
and `*` rounded to binary64 exactly as JS number arithmetic does (and the
literals 0.7, 0.5, 0.6 read as the nearest doubles). -/
def totalScore (p : Product) (q : Str) : ℚ :=
  let nameScore := fuzzyMatch p.name q
  let descScore := jsMul (fuzzyMatch p.description q) (fl 0.7)
  let categoryScore := jsMul (fuzzyMatch p.category q) (fl 0.5)
  let variantsScore :=
    jsMul ((p.variants.map (fun v => fuzzyMatch v.name q)).foldl (fun m sc => max m sc) 0)
      (fl 0.6)
  jsAdd (jsAdd (jsAdd nameScore descScore) categoryScore) variantsScore

/-- The specification's reading of the same score in exact rational
arithmetic (claim-side definition, for comparison with `totalScore`). -/
def totalScoreExact (p : Product) (q : Str) : ℚ :=
  let nameScore := fuzzyMatch p.name q
  let descScore := fuzzyMatch p.description q * 0.7
  let categoryScore := fuzzyMatch p.category q * 0.5
  let variantsScore :=
    ((p.variants.map (fun v => fuzzyMatch v.name q)).foldl (fun m sc => max m sc) 0) * 0.6
  nameScore + descScore + categoryScore + variantsScore

/-- `performSearch`: score, keep positive scores, sort descending (JS
`Array.prototype.sort` is stable; comparator `b.score - a.score`). -/
def performSearch (allProducts : List Product) (searchTerm : Str) : List Product :=
  if searchTerm = [] then allProducts
  else
    ((((allProducts.map (fun p => (p, totalScore p searchTerm))).filter
        (fun x => decide (0 < x.2))).mergeSort
        (fun a b => decide (b.2 ≤ a.2))).map (fun x => x.1))

/-- The `switch` inside `applyCurrentFilters` (default arm keeps everything). -/
def filterPredApp (activeFilter : Str) (p : Product) : Bool :=
  if activeFilter = "hot".data then
    decide (p.category = "Food".data) || decide (p.category = "Flowers".data) ||
      decide (p.category = "Teddy Bears".data)
  else if activeFilter = "under50k".data then
    decide (0 < p.priceValue) && decide (p.priceValue < 50000)
  else if activeFilter = "budget-friendly".data then
    decide (0 < p.priceValue) && decide (p.priceValue ≤ 60000)
  else if activeFilter = "best-value".data then
    decide (50000 ≤ p.priceValue) && decide (p.priceValue ≤ 90000)
  else if activeFilter = "under100k".data then
    decide (0 < p.priceValue) && decide (p.priceValue < 100000)
  else if activeFilter = "same-day".data then p.sameDay
  else if activeFilter = "premium".data then decide (120000 ≤ p.priceValue)
  else true

/-- `applyCurrentFilters`: start from the full catalog when the search box is
empty, otherwise from the search-narrowed list, then apply the active filter
pill unless it is `all`. -/
def applyCurrentFilters (allProducts filteredProducts : List Product)
    (searchTerm activeFilter : Str) : List Product :=
  let products := if searchTerm = [] then allProducts else filteredProducts
  if activeFilter ≠ "all".data then products.filter (filterPredApp activeFilter)
  else products

/-- The keyword table of `filterByCategory`. -/
def categoryFilters : List (Str × List Str) :=
  [("valentine".data, ["valentine".data, "love".data, "heart".data, "romance".data,
      "rose".data, "cupid".data]),
   ("birthday".data, ["birthday".data, "celebration".data, "party".data, "gift".data,
      "cake".data]),
   ("anniversary".data, ["anniversary".data, "wedding".data, "engagement".data,
      "ring".data, "couple".data]),
   ("holiday".data, ["christmas".data, "holiday".data, "santa".data, "festive".data,
      "seasonal".data]),
   ("jewelry".data, ["ring".data, "necklace".data, "bracelet".data, "earring".data,
      "silver".data, "gold".data, "jewelry".data, "pendant".data]),
   ("watches".data, ["watch".data, "timepiece".data]),
   ("plush".data, ["teddy".data, "bear".data, "plush".data, "stuffed".data, "toy".data]),
   ("home".data, ["mug".data, "basket".data, "cup".data, "home".data, "decor".data]),
   ("fashion".data, ["pants".data, "clothing".data, "apparel".data, "fashion".data,
      "wear".data]),
   ("beauty".data, ["beauty".data, "skincare".data, "cosmetic".data]),
   ("for-her".data, ["women".data, "woman".data, "her".data, "ladies".data,
      "female".data]),
   ("for-him".data, ["men".data, "man".data, "male".data, "mens".data]),
   ("couples".data, ["couple".data, "pair".data, "his and hers".data]),
   ("trending".data, []),
   ("bundles".data, ["set".data, "bundle".data, "pack".data, "collection".data])]

/-- `filterByCategory` (the part that computes the narrowed list): `trending`
uses a price band capped to the first 50 catalog matches, everything else
keyword containment over `name + " " + description`, always starting from the
full catalog. -/
def filterByCategory (allProducts : List Product) (category : Str) : List Product :=
  if category = "trending".data then
    (allProducts.filter (fun p =>
      decide (40000 < p.priceValue) && decide (p.priceValue < 100000))).take 50
  else
    let keywords := (((categoryFilters.find? (fun kv => decide (kv.1 = category))).map
      (fun kv => kv.2)).getD [])
    allProducts.filter (fun p =>
      let text := lowerStr (p.name ++ ' ' :: p.description)
      keywords.any (fun kw => strContains text kw))

/-! ### Prioritizer (`app.js` `prioritizeProducts`) -/

def FEATURED1 : Str := "PROD-1487".data
def FEATURED2 : Str := "PROD-1488".data

def priorityKeywords : List Str :=
  ["flower".data, "rose".data, "bouquet".data, "pizza".data, "drink".data,
   "beverage".data, "chicken".data, "ring".data, "engagement".data, "wedding".data,
   "document".data, "certificate".data, "processing".data]

def isPriorityProduct (p : Product) : Bool :=
  let text := lowerStr (p.name ++ ' ' :: p.description)
  priorityKeywords.any (fun kw => strContains text kw)

/-- `featuredMap.has(pid)`: the map is keyed by the featured ids found in the
list. -/
def featuredHas (products : List Product) (pid : Str) : Bool :=
  (decide (pid = FEATURED1) || decide (pid = FEATURED2)) &&
    products.any (fun p => decide (p.productId = pid))

/-- `featuredMap.get(featuredIds[0])`: the last product carrying the first
featured id (`Map.set` overwrites on duplicate keys). -/
def featuredGet1 (products : List Product) : Option Product :=
  (products.filter (fun p => decide (p.productId = FEATURED1))).getLast?

/-- `featuredMap.get(featuredIds[1])`. -/
def featuredGet2 (products : List Product) : Option Product :=
  (products.filter (fun p => decide (p.productId = FEATURED2))).getLast?

/-- The `remaining` list: products whose id is not a key of `featuredMap`. -/
def remainingOf (products : List Product) : List Product :=
  products.filter (fun p => !featuredHas products p.productId)

/-- `[...priority, ...other]`: the stable keyword partition built by the
`forEach` push loop. -/
def prioritizedOf (products : List Product) : List Product :=
  ((remainingOf products).partition isPriorityProduct).1 ++
    ((remainingOf products).partition isPriorityProduct).2

/-- `prioritizeProducts`. -/
def prioritizeProducts (products : List Product) : List Product :=
  match featuredGet1 products, featuredGet2 products with
  | some f, some s =>
    f :: ((prioritizedOf products).take (min 10 (prioritizedOf products).length)
      ++ s :: (prioritizedOf products).drop (min 10 (prioritizedOf products).length))
  | some f, none => f :: prioritizedOf products
  | none, some s => s :: prioritizedOf products
  | none, none => prioritizedOf products

/-! ### Claim-side definitions (phrased from the specification) -/

/-- The products carrying neither pinned identifier. -/
def nonFeatured (products : List Product) : List Product :=
  products.filter (fun p =>
    !(decide (p.productId = FEATURED1) || decide (p.productId = FEATURED2)))

/-- The specification's "stable partition": keyword-matching products first,
then the rest, relative order preserved inside each group. -/
def keywordPartitioned (products : List Product) : List Product :=
  (nonFeatured products).filter isPriorityProduct ++
    (nonFeatured products).filter (fun p => !isPriorityProduct p)

/-- Standard CSV quoting of a field value: double every quote and enclose in
quotes. -/
def escapeQuotes : Str → Str
  | [] => []
  | c :: t => if c = '"' then '"' :: '"' :: escapeQuotes t else c :: escapeQuotes t

/-- A field properly enclosed in double quotes. -/
def serializeField (v : Str) : Str := '"' :: (escapeQuotes v ++ ['"'])

/-- A variant-blob entry of the shape `<name> — <price text>`. -/
def dashEntry (name ptext : Str) : Str := name ++ (' ' :: '—' :: ' ' :: ptext)

/-- Price text that starts with `₦` followed by a digit or comma — the shape
the app regexp requires right after the dash. -/
def nairaForm (ptext : Str) : Bool :=
  match ptext with
  | c :: d :: _ => decide (c = '₦') && isDigitOrComma d
  | _ => false

/-- The row-acceptance condition as the specification states it: at least two
fields, non-empty first field, and a resolvable display price (own price
field, else at least one parsed variant). -/
def acceptPredApp (row : Str) : Bool :=
  decide (2 ≤ (cleanFieldsOf row).length) && decide ((cleanFieldsOf row).getD 0 [] ≠ []) &&
    (decide (trim ((cleanFieldsOf row).getD 3 []) ≠ []) ||
      decide (parseVariantsApp ((cleanFieldsOf row).getD 4 []) ≠ []))

/-- Erase the running id, for comparing `parseCSVApp` with a plain
`filterMap`. -/
def stripId (p : Product) : Product := { p with id := 0 }

/-- A small concrete product used by counterexamples and witnesses. -/
def demoTeddy : Product :=
  { id := 1, productId := "T1".data, name := "teddy bear".data, description := [],
    price := "₦1".data, priceValue := 1, variants := [], category := "Other".data,
    emoji := "📦".data, imageUrl := [], sameDay := false }

/-- A second small concrete product. -/
def demoRose : Product :=
  { id := 2, productId := "R1".data, name := "rose flower".data, description := [],
    price := "₦1".data, priceValue := 1, variants := [], category := "Other".data,
    emoji := "📦".data, imageUrl := [], sameDay := false }

def demoCatalog : List Product := [demoTeddy, demoRose]

/-- A demonstration product carrying the first pinned identifier. -/
def demoFeat1 : Product := { demoTeddy with productId := FEATURED1, id := 3 }

/-- A demonstration product carrying the second pinned identifier. -/
def demoFeat2 : Product := { demoTeddy with productId := FEATURED2, id := 4 }

/-- Against the query `ws`: fuzzy scores (0, 2, 0, 0), double score exactly
1.4, exact-arithmetic score 7/5. -/
def wsTeddy : Product :=
  { id := 5, productId := "W1".data, name := "teddy".data,
    description := "bows and ribbons".data, price := "₦1".data, priceValue := 1,
    variants := [], category := "plush".data, emoji := "📦".data, imageUrl := [],
    sameDay := false }

/-- Against the query `ws`: fuzzy scores (0.5, 0.5, 0.5, 0.5), double score
1.4000000000000001 (one ulp above 1.4), exact-arithmetic score 7/5. -/
def wsWatch : Product :=
  { id := 6, productId := "W2".data, name := "wristwatch".data,
    description := "wise".data, price := "₦1".data, priceValue := 1,
    variants := [⟨"wands".data, "₦1".data, 1⟩], category := "watches".data,
    emoji := "📦".data, imageUrl := [], sameDay := false }

/-! ## Helper lemmas -/

theorem digit_toNat {c : Char} (h : isDigitC c = true) : 48 ≤ c.toNat ∧ c.toNat ≤ 57 := by
  simpa [isDigitC, Bool.and_eq_true, decide_eq_true_eq] using h

theorem ws_false_of_digit {c : Char} (h : isDigitC c = true) : isWs c = false := by
  have := digit_toNat h
  simp only [isWs, Bool.or_eq_false_iff, decide_eq_false_iff_not]
  omega

theorem digit_ne_minus {c : Char} (h : isDigitC c = true) : ¬(c = '-') := by
  intro e; subst e; exact absurd h (by decide)

theorem digit_ne_plus {c : Char} (h : isDigitC c = true) : ¬(c = '+') := by
  intro e; subst e; exact absurd h (by decide)

theorem digit_ne_x {c : Char} (h : isDigitC c = true) : ¬(c = 'x') := by
  intro e; subst e; exact absurd h (by decide)

theorem digit_ne_X {c : Char} (h : isDigitC c = true) : ¬(c = 'X') := by
  intro e; subst e; exact absurd h (by decide)

theorem digit_ne_naira {c : Char} (h : isDigitC c = true) : ¬(c = '₦') := by
  intro e; subst e; exact absurd h (by decide)

theorem digit_ne_comma {c : Char} (h : isDigitC c = true) : ¬(c = ',') := by
  intro e; subst e; exact absurd h (by decide)

theorem takeWhile_eq_self_of_all {p : Char → Bool} {l : Str} (h : ∀ c ∈ l, p c = true) :
    l.takeWhile p = l := by
  induction l with
  | nil => rfl
  | cons c t ih =>
    rw [List.takeWhile_cons_of_pos (h c (List.mem_cons_self c t))]
    rw [ih (fun d hd => h d (List.mem_cons_of_mem c hd))]

/-- `decDigitsPart` on an all-digit string reads the whole string. -/
theorem decDigitsPart_all_digits {l : Str} (h : ∀ c ∈ l, isDigitC c = true) :
    decDigitsPart l = if l = [] then none else some (digitsVal l) := by
  unfold decDigitsPart
  rw [takeWhile_eq_self_of_all h]

theorem jsParseIntDec_digits {l : Str} (h : ∀ c ∈ l, isDigitC c = true) :
    jsParseIntDec l = if l = [] then none else some ((digitsVal l : Int)) := by
  cases l with
  | nil => rfl
  | cons c t =>
    have hc := h c (List.mem_cons_self c t)
    unfold jsParseIntDec
    rw [List.dropWhile_cons, ws_false_of_digit hc]
    simp only [Bool.false_eq_true, if_false]
    rw [if_neg (digit_ne_minus hc), if_neg (digit_ne_plus hc),
      decDigitsPart_all_digits h]
    simp

theorem hexPrefixBody_of_digits {l : Str} (h : ∀ c ∈ l, isDigitC c = true) :
    hexPrefixBody l = none := by
  match l with
  | [] => rfl
  | [c] => rfl
  | c0 :: c1 :: t =>
    have h1 : isDigitC c1 = true := h c1 (by simp)
    show (if (decide (c0 = '0') && (decide (c1 = 'x') || decide (c1 = 'X'))) = true
      then some t else none) = none
    rw [if_neg]
    simp only [Bool.and_eq_true, Bool.or_eq_true, decide_eq_true_eq, not_and, not_or]
    exact fun _ => ⟨digit_ne_x h1, digit_ne_X h1⟩

theorem jsParseInt_digits {l : Str} (h : ∀ c ∈ l, isDigitC c = true) :
    jsParseInt l = if l = [] then none else some ((digitsVal l : Int)) := by
  cases l with
  | nil => rfl
  | cons c t =>
    have hc := h c (List.mem_cons_self c t)
    unfold jsParseInt
    rw [List.dropWhile_cons, ws_false_of_digit hc]
    simp only [Bool.false_eq_true, if_false]
    rw [if_neg (digit_ne_minus hc), if_neg (digit_ne_plus hc)]
    unfold jsParseIntCore
    rw [hexPrefixBody_of_digits h, decDigitsPart_all_digits h]
    simp

/-- The staff price parser is exactly the specified price semantics. -/
theorem parsePriceValueStaff_eq_spec (s : Str) : parsePriceValueStaff s = specPrice s := by
  have h : ∀ c ∈ s.filter isDigitC, isDigitC c = true :=
    fun c hc => (List.mem_filter.mp hc).2
  unfold parsePriceValueStaff specPrice
  rw [jsParseIntDec_digits h]
  by_cases hd : s.filter isDigitC = [] <;> simp [hd]

theorem specPrice_nonneg (s : Str) : 0 ≤ specPrice s := by
  show 0 ≤ if s.filter isDigitC = [] then (0 : Int) else ((digitsVal (s.filter isDigitC) : Int))
  split
  · exact le_refl 0
  · exact Int.natCast_nonneg _

theorem getD_map_natCast_nonneg (o : Option Nat) :
    0 ≤ (o.map (fun n => (n : Int))).getD 0 := by
  cases o with
  | none => exact le_refl 0
  | some n => exact Int.natCast_nonneg n

theorem jsParseInt_cons_step {l : Str} {c : Char} {t : Str} (hd : l.dropWhile isWs = c :: t) :
    jsParseInt l =
      if c = '-' then (jsParseIntCore t).map (fun n => -(n : Int))
      else if c = '+' then (jsParseIntCore t).map (fun n => (n : Int))
      else (jsParseIntCore (c :: t)).map (fun n => (n : Int)) := by
  unfold jsParseInt
  rw [hd]

theorem jsParseInt_nonneg_of_no_minus {l : Str} (h : '-' ∉ l) :
    0 ≤ (jsParseInt l).getD 0 := by
  cases hd : l.dropWhile isWs with
  | nil =>
    have : jsParseInt l = (jsParseIntCore []).map (fun n => (n : Int)) := by
      unfold jsParseInt; rw [hd]
    rw [this]
    exact getD_map_natCast_nonneg _
  | cons c t =>
    have hmem : c ∈ l := (List.dropWhile_sublist isWs).subset (hd ▸ List.mem_cons_self c t)
    have hcm : ¬(c = '-') := fun e => h (e ▸ hmem)
    rw [jsParseInt_cons_step hd, if_neg hcm]
    split
    · exact getD_map_natCast_nonneg _
    · exact getD_map_natCast_nonneg _

theorem parsePriceValueApp_nonneg_of_no_minus {s : Str} (h : '-' ∉ s) :
    0 ≤ parsePriceValueApp s := by
  unfold parsePriceValueApp
  apply jsParseInt_nonneg_of_no_minus
  intro hm
  exact h (List.mem_of_mem_filter hm)

/-- Group 2 of a successful app-regexp tail match is `₦` followed by a
non-empty run of digits and commas. -/
theorem appTail_shape {r g2 : Str} (h : appTail r = some g2) :
    ∃ ds, g2 = '₦' :: ds ∧ ∀ c ∈ ds, isDigitOrComma c = true := by
  unfold appTail at h
  split at h
  · exact absurd h (by simp)
  · split at h
    · split at h
      · exact absurd h (by simp)
      · split at h
        · split at h
          · exact absurd h (by simp)
          · rename_i t4 _ _ _
            refine ⟨_, (Option.some.injEq _ _ ▸ h).symm, ?_⟩
            intro c hc
            exact List.all_eq_true.mp (List.all_takeWhile (p := isDigitOrComma) (l := t4)) c hc
        · exact absurd h (by simp)
    · exact absurd h (by simp)

theorem appLazy_shape {rest : Str} :
    ∀ {g1 : Str} {m : Str × Str}, appLazy g1 rest = some m →
      ∃ ds, m.2 = '₦' :: ds ∧ ∀ c ∈ ds, isDigitOrComma c = true := by
  induction rest with
  | nil =>
    intro g1 m h
    rw [appLazy] at h
    split at h
    · rename_i g2 htail
      cases h
      exact appTail_shape htail
    · exact absurd h (by simp)
  | cons c t ih =>
    intro g1 m h
    rw [appLazy] at h
    split at h
    · rename_i g2 htail
      cases h
      exact appTail_shape htail
    · split at h
      · exact ih h
      · exact absurd h (by simp)

theorem appSearch_shape {s : Str} {m : Str × Str} (h : appSearch s = some m) :
    ∃ ds, m.2 = '₦' :: ds ∧ ∀ c ∈ ds, isDigitOrComma c = true := by
  induction s with
  | nil => exact absurd h (by simp [appSearch])
  | cons c t ih =>
    rw [appSearch] at h
    split at h
    · rename_i m' hm'
      split at hm'
      · cases h
        exact appLazy_shape hm'
      · exact absurd hm' (by simp)
    · exact ih h

/-- Every variant produced by the app parser records a price of the form
`₦digits/commas`. -/
theorem mem_parseVariantsApp {s : Str} {v : Variant} (hv : v ∈ parseVariantsApp s) :
    ∃ m : Str × Str, (∃ ds, m.2 = '₦' :: ds ∧ ∀ c ∈ ds, isDigitOrComma c = true) ∧
      v = ⟨trim m.1, trim m.2, parsePriceValueApp m.2⟩ := by
  unfold parseVariantsApp at hv
  split at hv
  · exact absurd hv (by simp)
  · obtain ⟨part, _, heq⟩ := List.mem_filterMap.mp hv
    obtain ⟨m, hm, hveq⟩ := Option.map_eq_some'.mp heq
    exact ⟨m, appSearch_shape hm, hveq.symm⟩

theorem no_minus_of_naira_digits {ds : Str} (hall : ∀ c ∈ ds, isDigitOrComma c = true) :
    '-' ∉ ('₦' :: ds) := by
  intro hm
  rcases List.mem_cons.mp hm with h | h
  · exact absurd h.symm (by decide)
  · have := hall _ h
    simp only [isDigitOrComma, Bool.or_eq_true, decide_eq_true_eq] at this
    rcases this with hd | hc
    · exact digit_ne_minus hd rfl
    · exact absurd hc (by decide)

theorem parseVariantsApp_priceValue_nonneg {s : Str} {v : Variant}
    (hv : v ∈ parseVariantsApp s) : 0 ≤ v.priceValue := by
  obtain ⟨m, ⟨ds, hshape, hall⟩, hveq⟩ := mem_parseVariantsApp hv
  rw [hveq]
  show 0 ≤ parsePriceValueApp m.2
  rw [hshape]
  exact parsePriceValueApp_nonneg_of_no_minus (no_minus_of_naira_digits hall)

theorem parseVariantsStaff_priceValue_nonneg {s : Str} {v : Variant}
    (hv : v ∈ parseVariantsStaff s) : 0 ≤ v.priceValue := by
  unfold parseVariantsStaff at hv
  split at hv
  · exact absurd hv (by simp)
  · obtain ⟨part, _, heq⟩ := List.mem_filterMap.mp hv
    obtain ⟨m, _, hveq⟩ := Option.map_eq_some'.mp heq
    rw [← hveq]
    show 0 ≤ parsePriceValueStaff m.2
    rw [parsePriceValueStaff_eq_spec]
    exact specPrice_nonneg _

/-- `strContains` decides contiguous containment. -/
theorem strContains_iff {s n : Str} : strContains s n = true ↔ n <:+: s := by
  induction s with
  | nil =>
    simp [strContains]
  | cons c t ih =>
    rw [strContains]
    simp only [Bool.or_eq_true, List.isPrefixOf_iff_prefix, ih, List.infix_cons_iff]

open List in
/-- The greedy subsequence scan decides `List.Sublist`. -/
theorem subseqCheck_iff {s p : Str} : subseqCheck s p = true ↔ p <+ s := by
  induction s generalizing p with
  | nil =>
    cases p with
    | nil => simp [subseqCheck]
    | cons q qs => simp [subseqCheck]
  | cons c t ih =>
    cases p with
    | nil => simp [subseqCheck]
    | cons q qs =>
      rw [subseqCheck]
      by_cases hq : c = q
      · subst hq
        rw [if_pos rfl, ih, List.cons_sublist_cons]
      · rw [if_neg hq, ih, List.sublist_cons_iff]
        constructor
        · exact Or.inl
        · rintro (h | ⟨r, hr, _⟩)
          · exact h
          · exact absurd (List.cons.injEq .. ▸ hr).1.symm hq

/-! ## C1 — price parsing -/

/-- C1, counterexample: the app `parsePriceValue` does not strip every
non-digit character — on `"12.5"` it stops at the decimal point and returns
12, while the specified semantics (strip all non-digits, then read the
digits) gives 125; the staff implementation follows the specification. -/
theorem C1_counterexample :
    parsePriceValueApp "12.5".data = 12 ∧ specPrice "12.5".data = 125 ∧
      parsePriceValueStaff "12.5".data = 125 := by
  refine ⟨by decide, by decide, ?_⟩
  rw [parsePriceValueStaff_eq_spec]
  decide

/-- On strings made only of `₦`, commas and digits the app `parsePriceValue`
agrees with the strip-all-non-digits semantics. -/
theorem parsePriceValueApp_eq_spec_of_chars {s : Str}
    (hs : ∀ c ∈ s, c = '₦' ∨ c = ',' ∨ isDigitC c = true) :
    parsePriceValueApp s = specPrice s := by
  unfold parsePriceValueApp
  have hfe : s.filter (fun c => !(c = '₦' || c = ',')) = s.filter isDigitC := by
    apply List.filter_congr
    intro c hc
    rcases hs c hc with h | h | h
    · subst h; decide
    · subst h; decide
    · simp [digit_ne_naira h, digit_ne_comma h, h]
  rw [hfe, jsParseInt_digits (fun c hc => (List.mem_filter.mp hc).2)]
  show _ = specPrice s
  unfold specPrice
  by_cases hd : s.filter isDigitC = [] <;> simp [hd]

/-- C1 (amended): the staff `parsePriceValue` strips every non-digit
character and reads the remaining digits as one base-10 integer (empty or
all-non-digit input yielding 0); the app `parsePriceValue` agrees with that
semantics on strings made only of `₦`, commas and digits; and both agree with
the three examples `parsePrice("₦12,500") == 12500`, `parsePrice("") == 0`,
`parsePrice("free") == 0`. -/
theorem C1_price_parsing :
    (∀ s : Str, parsePriceValueStaff s = specPrice s) ∧
    (∀ s : Str, (∀ c ∈ s, c = '₦' ∨ c = ',' ∨ isDigitC c = true) →
      parsePriceValueApp s = specPrice s) ∧
    parsePriceValueApp "₦12,500".data = 12500 ∧
    parsePriceValueApp [] = 0 ∧
    parsePriceValueApp "free".data = 0 ∧
    parsePriceValueStaff "₦12,500".data = 12500 ∧
    parsePriceValueStaff [] = 0 ∧
    parsePriceValueStaff "free".data = 0 := by
  refine ⟨parsePriceValueStaff_eq_spec, ?_, by decide, by decide, by decide,
    by decide, by decide, by decide⟩
  intro s hs
  exact parsePriceValueApp_eq_spec_of_chars hs

/-- C1, witness. -/
theorem C1_witness : parsePriceValueApp "₦9,000".data = specPrice "₦9,000".data :=
  C1_price_parsing.2.1 _ (by decide)

/-! ## C3 — non-negative price values -/

/-- C3, counterexample: the app `parsePriceValue` can return a negative
number — on `"-50"` only `₦` and commas are stripped, and JS `parseInt`
accepts the leading minus sign. -/
theorem C3_counterexample : parsePriceValueApp "-50".data = -50 := by decide

/-- C3 (amended): the staff `parsePriceValue` always returns a non-negative
integer; the app `parsePriceValue` returns a non-negative integer on every
input that does not contain a minus sign; and every variant constructed by
either `parseVariants` has a non-negative `priceValue`. -/
theorem C3_priceValue_nonneg :
    (∀ s : Str, 0 ≤ parsePriceValueStaff s) ∧
    (∀ s : Str, '-' ∉ s → 0 ≤ parsePriceValueApp s) ∧
    (∀ (s : Str) (v : Variant), v ∈ parseVariantsApp s → 0 ≤ v.priceValue) ∧
    (∀ (s : Str) (v : Variant), v ∈ parseVariantsStaff s → 0 ≤ v.priceValue) := by
  refine ⟨?_, ?_, ?_, ?_⟩
  · intro s
    rw [parsePriceValueStaff_eq_spec]
    exact specPrice_nonneg s
  · intro s hs
    exact parsePriceValueApp_nonneg_of_no_minus hs
  · intro s v hv
    exact parseVariantsApp_priceValue_nonneg hv
  · intro s v hv
    exact parseVariantsStaff_priceValue_nonneg hv

/-! ## C8 — prioritizer -/

theorem featuredHas_eq_of_mem {products : List Product} {p : Product} (hp : p ∈ products) :
    featuredHas products p.productId =
      (decide (p.productId = FEATURED1) || decide (p.productId = FEATURED2)) := by
  unfold featuredHas
  cases hb : (decide (p.productId = FEATURED1) || decide (p.productId = FEATURED2)) with
  | false => rw [Bool.false_and]
  | true =>
    rw [Bool.true_and]
    exact List.any_eq_true.mpr ⟨p, hp, by simp⟩

theorem remainingOf_eq (products : List Product) :
    remainingOf products = nonFeatured products := by
  unfold remainingOf nonFeatured
  apply List.filter_congr
  intro p hp
  rw [featuredHas_eq_of_mem hp]

theorem prioritizedOf_eq (products : List Product) :
    prioritizedOf products = keywordPartitioned products := by
  unfold prioritizedOf keywordPartitioned
  rw [List.partition_eq_filter_filter, remainingOf_eq]
  rfl

open List in
/-- C8: when exactly one product carries each pinned identifier,
`prioritizeProducts` puts the first pinned product at index 0 and the second
at index `min(10, len) + 1` of the result, where `len` is the length of the
keyword-partitioned remainder (keyword-matching products ahead, original
order preserved inside each group); with a single pinned identifier present,
that product is prepended at index 0. -/
theorem C8_prioritize :
    (∀ (products : List Product) (p1 p2 : Product),
      products.filter (fun p => decide (p.productId = FEATURED1)) = [p1] →
      products.filter (fun p => decide (p.productId = FEATURED2)) = [p2] →
      prioritizeProducts products =
        p1 :: ((keywordPartitioned products).take
            (min 10 (keywordPartitioned products).length)
          ++ p2 :: (keywordPartitioned products).drop
            (min 10 (keywordPartitioned products).length)) ∧
      (prioritizeProducts products)[0]? = some p1 ∧
      (prioritizeProducts products)[min 10 (keywordPartitioned products).length + 1]? =
        some p2) ∧
    (∀ (products : List Product) (p1 : Product),
      products.filter (fun p => decide (p.productId = FEATURED1)) = [p1] →
      products.filter (fun p => decide (p.productId = FEATURED2)) = [] →
      prioritizeProducts products = p1 :: keywordPartitioned products) ∧
    (∀ (products : List Product) (p2 : Product),
      products.filter (fun p => decide (p.productId = FEATURED1)) = [] →
      products.filter (fun p => decide (p.productId = FEATURED2)) = [p2] →
      prioritizeProducts products = p2 :: keywordPartitioned products) := by
  refine ⟨?_, ?_, ?_⟩
  · intro products p1 p2 h1 h2
    have hg1 : featuredGet1 products = some p1 := by unfold featuredGet1; rw [h1]; rfl
    have hg2 : featuredGet2 products = some p2 := by unfold featuredGet2; rw [h2]; rfl
    have hmain : prioritizeProducts products =
        p1 :: ((keywordPartitioned products).take
            (min 10 (keywordPartitioned products).length)
          ++ p2 :: (keywordPartitioned products).drop
            (min 10 (keywordPartitioned products).length)) := by
      unfold prioritizeProducts
      rw [hg1, hg2, prioritizedOf_eq]
    have hs : min 10 (keywordPartitioned products).length ≤
        (keywordPartitioned products).length := min_le_right _ _
    refine ⟨hmain, by rw [hmain]; exact List.getElem?_cons_zero, ?_⟩
    rw [hmain, List.getElem?_cons_succ,
      List.getElem?_append_right (by rw [List.length_take]; exact le_of_eq (min_eq_left hs)),
      List.length_take, min_eq_left hs]
    simp
  · intro products p1 h1 h2
    have hg1 : featuredGet1 products = some p1 := by unfold featuredGet1; rw [h1]; rfl
    have hg2 : featuredGet2 products = none := by unfold featuredGet2; rw [h2]; rfl
    unfold prioritizeProducts
    rw [hg1, hg2, prioritizedOf_eq]
  · intro products p2 h1 h2
    have hg1 : featuredGet1 products = none := by unfold featuredGet1; rw [h1]; rfl
    have hg2 : featuredGet2 products = some p2 := by unfold featuredGet2; rw [h2]; rfl
    unfold prioritizeProducts
    rw [hg1, hg2, prioritizedOf_eq]

/-- C8, witness. -/
theorem C8_witness :
    prioritizeProducts [demoFeat1, demoTeddy, demoFeat2] =
      demoFeat1 :: ((keywordPartitioned [demoFeat1, demoTeddy, demoFeat2]).take
          (min 10 (keywordPartitioned [demoFeat1, demoTeddy, demoFeat2]).length)
        ++ demoFeat2 :: (keywordPartitioned [demoFeat1, demoTeddy, demoFeat2]).drop
          (min 10 (keywordPartitioned [demoFeat1, demoTeddy, demoFeat2]).length)) :=
  (C8_prioritize.1 [demoFeat1, demoTeddy, demoFeat2] demoFeat1 demoFeat2
    (by decide) (by decide)).1

/-! ## C9 — the same-day flag -/

/-- Every product of `parseRowsApp` is a `buildRowApp` product with its id
overwritten by the running counter. -/
theorem mem_parseRowsApp {sIdx : Option Nat} :
    ∀ {pid : Nat} {rs : List Str} {p : Product}, p ∈ parseRowsApp sIdx pid rs →
      ∃ r ∈ rs, ∃ (p0 : Product) (n : Nat),
        buildRowApp sIdx r = some p0 ∧ p = { p0 with id := n } := by
  intro pid rs
  induction rs generalizing pid with
  | nil => intro p h; exact absurd h (List.not_mem_nil _)
  | cons r rs ih =>
    intro p h
    rw [parseRowsApp] at h
    cases hb : buildRowApp sIdx r with
    | some p0 =>
      rw [hb] at h
      rcases List.mem_cons.mp h with he | ht
      · exact ⟨r, List.mem_cons_self r rs, p0, pid, hb, he⟩
      · obtain ⟨r', hr', rest⟩ := ih ht
        exact ⟨r', List.mem_cons_of_mem _ hr', rest⟩
    | none =>
      rw [hb] at h
      obtain ⟨r', hr', rest⟩ := ih h
      exact ⟨r', List.mem_cons_of_mem _ hr', rest⟩

theorem buildRowApp_sameDay {sIdx : Option Nat} {r : Str} {p : Product}
    (h : buildRowApp sIdx r = some p) :
    p.sameDay = sameDayFlag sIdx (cleanFieldsOf r) := by
  unfold buildRowApp at h
  split at h
  · split at h
    · exact absurd h (by simp)
    · injection h with h'
      rw [← h']
      rfl
  · exact absurd h (by simp)

theorem buildRowStaff_sameDay {sIdx : Option Nat} {r : Str} {p : StaffProduct}
    (h : buildRowStaff sIdx r = some p) :
    p.sameDay = sameDayFlag sIdx (cleanFieldsOf r) := by
  unfold buildRowStaff at h
  split at h
  · split at h
    · exact absurd h (by simp)
    · injection h with h'
      rw [← h']
      rfl
  · exact absurd h (by simp)

theorem sameDayFlag_some (i : Nat) (cf : List Str) :
    sameDayFlag (some i) cf = decide (lowerStr (cf.getD i []) = "true".data) := by
  show (if cf.getD i [] ≠ [] then decide (lowerStr (cf.getD i []) = "true".data)
    else false) = _
  by_cases hc : cf.getD i [] = []
  · rw [if_neg (not_not_intro hc), hc]
    decide
  · rw [if_pos hc]

/-- C9: without a `sameday` header column every product of either parser has
`sameDay = false`; with the column at index `i`, a built product's `sameDay`
is true exactly when the row's cleaned cell in that column lowercases to
`true` (a missing or empty cell counts as not equal). -/
theorem C9_sameDay :
    (∀ text : Str, sameDayIdxOfRows (splitRows text) = none →
      ∀ p ∈ parseCSVApp text, p.sameDay = false) ∧
    (∀ (i : Nat) (r : Str) (p : Product), buildRowApp (some i) r = some p →
      p.sameDay = decide (lowerStr ((cleanFieldsOf r).getD i []) = "true".data)) ∧
    (∀ text : Str, sameDayIdxOfRows (splitRows text) = none →
      ∀ p ∈ parseCSVStaff text, p.sameDay = false) ∧
    (∀ (i : Nat) (r : Str) (p : StaffProduct), buildRowStaff (some i) r = some p →
      p.sameDay = decide (lowerStr ((cleanFieldsOf r).getD i []) = "true".data)) := by
  refine ⟨?_, ?_, ?_, ?_⟩
  · intro text hnone p hp
    have hp' : p ∈ parseRowsApp (sameDayIdxOfRows (splitRows text)) 1
        (splitRows text).tail := hp
    rw [hnone] at hp'
    obtain ⟨r, _, p0, n, hb, rfl⟩ := mem_parseRowsApp hp'
    show p0.sameDay = false
    rw [buildRowApp_sameDay hb]
    rfl
  · intro i r p h
    rw [buildRowApp_sameDay h, sameDayFlag_some]
  · intro text hnone p hp
    have hp' : p ∈ (splitRows text).tail.filterMap
        (buildRowStaff (sameDayIdxOfRows (splitRows text))) := hp
    rw [hnone] at hp'
    obtain ⟨r, _, hb⟩ := List.mem_filterMap.mp hp' 
    rw [buildRowStaff_sameDay hb]
    rfl
  · intro i r p h
    rw [buildRowStaff_sameDay h, sameDayFlag_some]

/-- C9, witness. -/
theorem C9_witness :
    ∀ p ∈ parseCSVApp "id,name\nA,B".data, p.sameDay = false :=
  C9_sameDay.1 "id,name\nA,B".data (by decide)

/-! ## C7 — row acceptance -/

theorem dropWhile_eq_self_of_all {p : Char → Bool} {l : Str}
    (h : ∀ c ∈ l, p c = false) : l.dropWhile p = l := by
  cases l with
  | nil => rfl
  | cons c t =>
    rw [List.dropWhile_cons, h c (List.mem_cons_self c t)]
    simp

theorem trim_eq_self_of_all {l : Str} (h : ∀ c ∈ l, isWs c = false) : trim l = l := by
  unfold trim
  rw [dropWhile_eq_self_of_all h,
    dropWhile_eq_self_of_all (fun c hc => h c (List.mem_reverse.mp hc)),
    List.reverse_reverse]

theorem trim_eq_nil_iff {l : Str} : trim l = [] ↔ ∀ c ∈ l, isWs c = true := by
  unfold trim
  rw [List.reverse_eq_nil_iff, List.dropWhile_eq_nil_iff]
  constructor
  · intro h c hc
    rcases List.mem_append.mp
        (by rw [List.takeWhile_append_dropWhile (p := isWs) (l := l)]; exact hc :
          c ∈ l.takeWhile isWs ++ l.dropWhile isWs) with hm | hm
    · exact List.all_eq_true.mp (List.all_takeWhile (p := isWs)) c hm
    · exact h c (List.mem_reverse.mpr hm)
  · intro h c hc
    exact h c ((List.dropWhile_sublist isWs).subset (List.mem_reverse.mp hc))

theorem parseVariantsApp_price_ne_nil {s : Str} {v : Variant}
    (hv : v ∈ parseVariantsApp s) : v.price ≠ [] := by
  obtain ⟨m, ⟨ds, hshape, _⟩, hveq⟩ := mem_parseVariantsApp hv
  rw [hveq]
  show trim m.2 ≠ []
  rw [hshape]
  intro hnil
  exact absurd (trim_eq_nil_iff.mp hnil '₦' (List.mem_cons_self _ _)) (by decide)

theorem minVariantOf_mem {vs : List Variant} (hne : vs ≠ []) : minVariantOf vs ∈ vs := by
  unfold minVariantOf
  cases hms : vs.mergeSort (fun a b => decide (a.priceValue ≤ b.priceValue)) with
  | nil =>
    have hlen : vs.length = 0 := by
      have h0 := congrArg List.length hms
      rw [List.length_mergeSort] at h0
      simpa using h0
    exact absurd (List.length_eq_zero.mp hlen) hne
  | cons v t =>
    rw [List.headD_cons]
    exact List.mem_mergeSort.mp (hms ▸ List.mem_cons_self v t)

theorem buildRowApp_id {sIdx : Option Nat} {r : Str} {p : Product}
    (h : buildRowApp sIdx r = some p) : p.id = 0 := by
  unfold buildRowApp at h
  split at h
  · split at h
    · exact absurd h (by simp)
    · injection h with h'
      rw [← h']
      rfl
  · exact absurd h (by simp)

theorem parseRowsApp_stripId (sIdx : Option Nat) :
    ∀ (pid : Nat) (rs : List Str),
      (parseRowsApp sIdx pid rs).map stripId = rs.filterMap (buildRowApp sIdx) := by
  intro pid rs
  induction rs generalizing pid with
  | nil => rfl
  | cons r rs ih =>
    rw [parseRowsApp, List.filterMap_cons]
    cases hb : buildRowApp sIdx r with
    | none => exact ih pid
    | some p0 =>
      rw [List.map_cons, ih (pid + 1)]
      have hid : p0.id = 0 := buildRowApp_id hb
      have : stripId { p0 with id := pid } = p0 := by
        unfold stripId
        show { p0 with id := 0 } = p0
        rw [← hid]
      rw [this]

/-- The display price resolved by the app builder is empty exactly when both
the own price field (trimmed) is empty and there are no parsed variants. -/
theorem displayPriceOfApp_eq_nil_iff (dp0 : Str) {s : Str} :
    displayPriceOf dp0 (parseVariantsApp s) = [] ↔
      dp0 = [] ∧ parseVariantsApp s = [] := by
  unfold displayPriceOf
  by_cases h2 : dp0 = []
  · by_cases h3 : parseVariantsApp s = []
    · rw [if_neg (fun hh => hh.2 h3)]
      simp [h2, h3]
    · rw [if_pos ⟨h2, h3⟩]
      have hmem := minVariantOf_mem h3
      have := parseVariantsApp_price_ne_nil hmem
      simp [this, h3]
  · rw [if_neg (fun hh => h2 hh.1)]
    simp [h2]

theorem buildRowApp_isSome (sIdx : Option Nat) (r : Str) :
    (buildRowApp sIdx r).isSome = acceptPredApp r := by
  unfold buildRowApp acceptPredApp
  by_cases h1 : 2 ≤ (cleanFieldsOf r).length ∧ (cleanFieldsOf r).getD 0 [] ≠ []
  · rw [if_pos h1, decide_eq_true h1.1, decide_eq_true h1.2]
    simp only [Bool.true_and]
    by_cases hdp : displayPriceOf (trim ((cleanFieldsOf r).getD 3 []))
        (parseVariantsApp ((cleanFieldsOf r).getD 4 [])) = []
    · rw [if_pos hdp]
      obtain ⟨hd0, hvs⟩ := (displayPriceOfApp_eq_nil_iff _).mp hdp
      rw [decide_eq_false (not_not_intro hd0), decide_eq_false (not_not_intro hvs)]
      rfl
    · rw [if_neg hdp]
      have hor := (not_iff_not.mpr (displayPriceOfApp_eq_nil_iff
        (trim ((cleanFieldsOf r).getD 3 [])))).mp hdp
      rcases not_and_or.mp hor with h | h
      · rw [decide_eq_true h, Bool.true_or]
        rfl
      · rw [decide_eq_true h, Bool.or_true]
        rfl
  · rw [if_neg h1]
    rcases not_and_or.mp h1 with h | h
    · rw [decide_eq_false h, Bool.false_and, Bool.false_and]
      rfl
    · rw [decide_eq_false h, Bool.and_false, Bool.false_and]
      rfl

/-- C7: the app `parseCSV` builds (id apart) exactly
`filterMap buildRowApp` over the non-header rows — so a malformed row is
dropped silently and parsing is total — and a row yields a product exactly
when it has at least 2 cleaned fields, a non-empty first field, and a
resolvable display price (its own price field, else at least one parsed
variant). -/
theorem C7_row_acceptance :
    (∀ text : Str, (parseCSVApp text).map stripId =
      (splitRows text).tail.filterMap (buildRowApp (sameDayIdxOfRows (splitRows text)))) ∧
    (∀ (sIdx : Option Nat) (r : Str), (buildRowApp sIdx r).isSome = acceptPredApp r) := by
  constructor
  · intro text
    exact parseRowsApp_stripId (sameDayIdxOfRows (splitRows text)) 1 (splitRows text).tail
  · exact buildRowApp_isSome

/-! ## C6 — quoted CSV fields -/

theorem dropWhile_idem (p : Char → Bool) (l : Str) :
    (l.dropWhile p).dropWhile p = l.dropWhile p := by
  induction l with
  | nil => rfl
  | cons c t ih =>
    by_cases h : p c = true
    · rw [List.dropWhile_cons_of_pos h]
      exact ih
    · rw [List.dropWhile_cons_of_neg h, List.dropWhile_cons_of_neg h]

theorem dropWhile_eq_self_of_head {p : Char → Bool} {l : Str}
    (h : ∀ c, l.head? = some c → p c = false) : l.dropWhile p = l := by
  cases l with
  | nil => rfl
  | cons c t =>
    rw [List.dropWhile_cons_of_neg]
    rw [h c rfl]
    simp

theorem head?_dropWhile_false {p : Char → Bool} {l : Str} {c : Char}
    (h : (l.dropWhile p).head? = some c) : p c = false := by
  have hh := List.head?_dropWhile_not p l
  rw [h] at hh
  exact hh

theorem getLast?_dropWhile (p : Char → Bool) (l : Str)
    (hne : l.dropWhile p ≠ []) : (l.dropWhile p).getLast? = l.getLast? := by
  obtain ⟨t, ht⟩ := List.dropWhile_suffix p (l := l)
  have hap : (t ++ l.dropWhile p).getLast? = (l.dropWhile p).getLast?.or t.getLast? :=
    List.getLast?_append
  rw [ht] at hap
  cases hg : (l.dropWhile p).getLast? with
  | none =>
    exact absurd (List.getLast?_eq_none_iff.mp hg) hne
  | some x =>
    rw [hg] at hap
    exact hap.symm

theorem trim_trim (l : Str) : trim (trim l) = trim l := by
  have h1 : (trim l).dropWhile isWs = trim l := by
    apply dropWhile_eq_self_of_head
    intro c hc
    unfold trim at hc
    rw [List.head?_reverse] at hc
    have hne : (l.dropWhile isWs).reverse.dropWhile isWs ≠ [] := by
      intro he
      rw [he] at hc
      exact Option.noConfusion hc
    rw [getLast?_dropWhile _ _ hne, List.getLast?_reverse] at hc
    exact head?_dropWhile_false hc
  show (((trim l).dropWhile isWs).reverse.dropWhile isWs).reverse = trim l
  rw [h1]
  show (((((l.dropWhile isWs).reverse.dropWhile isWs).reverse).reverse.dropWhile
    isWs)).reverse = trim l
  rw [List.reverse_reverse, dropWhile_idem]
  rfl

/-- Double every quote character. -/
theorem escapeQuotes_append (a b : Str) :
    escapeQuotes (a ++ b) = escapeQuotes a ++ escapeQuotes b := by
  induction a with
  | nil => rfl
  | cons c t ih =>
    rw [List.cons_append, escapeQuotes, escapeQuotes]
    split
    · rw [ih]
      rfl
    · rw [ih]
      rfl

theorem escapeQuotes_replicate (k : Nat) :
    escapeQuotes (List.replicate k '"') = List.replicate (2 * k) '"' := by
  induction k with
  | zero => rfl
  | succ k ih =>
    rw [List.replicate_succ, escapeQuotes, if_pos rfl, ih]
    rw [show 2 * (k + 1) = (2 * k) + 1 + 1 by omega]
    rw [List.replicate_succ, List.replicate_succ]

theorem escapeQuotes_no_quote {v : Str} (h : ∀ c ∈ v, ¬(c = '"')) :
    escapeQuotes v = v := by
  induction v with
  | nil => rfl
  | cons c t ih =>
    rw [escapeQuotes, if_neg (h c (List.mem_cons_self c t))]
    rw [ih (fun d hd => h d (List.mem_cons_of_mem c hd))]

/-! Single-step computation lemmas for the two character loops. -/

theorem splitRowsGo_quote (rest : Str) (q : Bool) (cur : Str) :
    splitRowsGo ('"' :: rest) q cur = splitRowsGo rest (!q) (cur ++ ['"']) := by
  cases rest with
  | nil => rfl
  | cons r1 t => rfl

theorem splitRowsGo_otherQ {c : Char} (rest : Str) (cur : Str) (hc : ¬(c = '"')) :
    splitRowsGo (c :: rest) true cur = splitRowsGo rest true (cur ++ [c]) := by
  cases rest with
  | nil =>
    conv_lhs => rw [splitRowsGo]
    rw [if_neg hc]
    simp
  | cons r1 t =>
    conv_lhs => rw [splitRowsGo]
    rw [if_neg hc]
    simp

theorem parseCSVRowGo_quoteQuote (rest : Str) (q : Bool) (cur : Str) :
    parseCSVRowGo ('"' :: '"' :: rest) q cur = parseCSVRowGo rest q (cur ++ ['"']) := rfl

theorem parseCSVRowGo_quoteOther {r1 : Char} (rest2 : Str) (q : Bool) (cur : Str)
    (h : ¬(r1 = '"')) :
    parseCSVRowGo ('"' :: r1 :: rest2) q cur = parseCSVRowGo (r1 :: rest2) (!q) cur := by
  rw [parseCSVRowGo, if_pos rfl, if_neg h]

theorem parseCSVRowGo_quoteNil (q : Bool) (cur : Str) :
    parseCSVRowGo ['"'] q cur = [trim cur] := rfl

theorem parseCSVRowGo_otherTrue {c : Char} (rest : Str) (cur : Str) (hc : ¬(c = '"')) :
    parseCSVRowGo (c :: rest) true cur = parseCSVRowGo rest true (cur ++ [c]) := by
  cases rest with
  | nil =>
    conv_lhs => rw [parseCSVRowGo]
    rw [if_neg hc]
    simp
  | cons r1 t =>
    conv_lhs => rw [parseCSVRowGo]
    rw [if_neg hc]
    simp

/-- Inside quotes, the row splitter appends everything up to and including
the closing quote (escaped quotes toggle the state twice). -/
theorem splitRowsGo_escape (v : Str) :
    ∀ cur, splitRowsGo (escapeQuotes v ++ ['"']) true cur
      = [cur ++ (escapeQuotes v ++ ['"'])] := by
  induction v with
  | nil =>
    intro cur
    show splitRowsGo ['"'] true cur = [cur ++ ['"']]
    rw [splitRowsGo_quote]
    show (if trim (cur ++ ['"']) = [] then [] else [cur ++ ['"']]) = [cur ++ ['"']]
    rw [if_neg]
    intro hnil
    exact absurd (trim_eq_nil_iff.mp hnil '"' (by simp)) (by decide)
  | cons c t ih =>
    intro cur
    by_cases hc : c = '"'
    · subst hc
      show splitRowsGo ('"' :: '"' :: (escapeQuotes t ++ ['"'])) true cur = _
      rw [splitRowsGo_quote, splitRowsGo_quote]
      simp only [Bool.not_not]
      rw [ih]
      rw [show escapeQuotes ('"' :: t) = '"' :: '"' :: escapeQuotes t from rfl]
      simp
    · rw [show escapeQuotes (c :: t) = c :: escapeQuotes t from by
        rw [escapeQuotes, if_neg hc]]
      rw [List.cons_append, splitRowsGo_otherQ _ _ hc, ih]
      simp

/-- Inside quotes, the field parser accumulates the unescaped content up to
the closing quote and finally pushes the trimmed field. -/
theorem parseCSVRowGo_escape (v : Str) :
    ∀ cur, parseCSVRowGo (escapeQuotes v ++ ['"']) true cur = [trim (cur ++ v)] := by
  induction v with
  | nil =>
    intro cur
    show parseCSVRowGo ['"'] true cur = [trim (cur ++ [])]
    rw [parseCSVRowGo_quoteNil]
    simp
  | cons c t ih =>
    intro cur
    by_cases hc : c = '"'
    · subst hc
      show parseCSVRowGo ('"' :: '"' :: (escapeQuotes t ++ ['"'])) true cur = _
      rw [parseCSVRowGo_quoteQuote, ih]
      simp
    · rw [show escapeQuotes (c :: t) = c :: escapeQuotes t from by
        rw [escapeQuotes, if_neg hc]]
      rw [List.cons_append, parseCSVRowGo_otherTrue _ _ hc, ih]
      simp

/-- Opening a field that begins with `2k` escaped quotes: the parser consumes
them pairwise as literal quotes while still outside quotes, then the odd
final quote of the opening run toggles the in-quotes state. -/
theorem parseCSVRowGo_openQuotes :
    ∀ (k : Nat) (rest : Str) (cur : Str), rest.head? ≠ some '"' →
      parseCSVRowGo ('"' :: (List.replicate (2 * k) '"' ++ rest)) false cur =
        parseCSVRowGo rest true (cur ++ List.replicate k '"') := by
  intro k
  induction k with
  | zero =>
    intro rest cur hh
    show parseCSVRowGo ('"' :: rest) false cur = _
    cases rest with
    | nil =>
      rw [parseCSVRowGo_quoteNil]
      show _ = parseCSVRowGo [] true (cur ++ [])
      simp [parseCSVRowGo]
    | cons r1 t =>
      have hr1 : ¬(r1 = '"') := fun he => hh (by rw [he]; rfl)
      rw [parseCSVRowGo_quoteOther _ _ _ hr1]
      show parseCSVRowGo (r1 :: t) true cur = parseCSVRowGo (r1 :: t) true (cur ++ [])
      simp
  | succ k ih =>
    intro rest cur hh
    rw [show List.replicate (2 * (k + 1)) '"' = '"' :: '"' :: List.replicate (2 * k) '"'
      from by rw [show 2 * (k + 1) = 2 * k + 1 + 1 by omega, List.replicate_succ,
        List.replicate_succ]]
    rw [List.cons_append, List.cons_append, parseCSVRowGo_quoteQuote, ih _ _ hh]
    rw [show List.replicate (k + 1) '"' = '"' :: List.replicate k '"' from
      List.replicate_succ ..]
    simp

/-- Every field the parser emits is already trimmed. -/
theorem parseCSVRowGo_trimmed :
    ∀ (n : Nat) (row : Str), row.length ≤ n → ∀ (q : Bool) (cur : Str),
      ∀ f ∈ parseCSVRowGo row q cur, trim f = f := by
  intro n
  induction n with
  | zero =>
    intro row hlen q cur f hf
    rw [List.length_eq_zero.mp (Nat.le_zero.mp hlen)] at hf
    rw [parseCSVRowGo] at hf
    rw [List.mem_singleton.mp hf]
    exact trim_trim cur
  | succ n ih =>
    intro row hlen q cur f hf
    rcases row with _ | ⟨c, _ | ⟨r1, rest2⟩⟩
    · rw [parseCSVRowGo] at hf
      rw [List.mem_singleton.mp hf]
      exact trim_trim cur
    · rw [parseCSVRowGo] at hf
      split_ifs at hf with h1 h2
      · exact ih [] (by simp) _ _ f hf
      · rcases List.mem_cons.mp hf with he | ht
        · rw [he]; exact trim_trim cur
        · exact ih [] (by simp) _ _ f ht
      · exact ih [] (by simp) _ _ f hf
    · have hlen2 : rest2.length ≤ n := by
        simp only [List.length_cons] at hlen
        omega
      have hlen1 : (r1 :: rest2).length ≤ n := by
        simp only [List.length_cons] at hlen ⊢
        omega
      rw [parseCSVRowGo] at hf
      split_ifs at hf with h1 h2 h3
      · exact ih rest2 hlen2 _ _ f hf
      · exact ih (r1 :: rest2) hlen1 _ _ f hf
      · rcases List.mem_cons.mp hf with he | ht
        · rw [he]; exact trim_trim cur
        · exact ih (r1 :: rest2) hlen1 _ _ f ht
      · exact ih (r1 :: rest2) hlen1 _ _ f hf

/-- C6, counterexample: a field consisting of a doubled quote between
enclosing quotes (the standard encoding of the one-character value `"`)
parses to two literal quote characters, not one — the `""` branch fires
before the opening quote is recognised, so the enclosing quotes are consumed
as escape pairs instead of being stripped.  Likewise the empty quoted field
`""` parses to one literal quote instead of the empty value. -/
theorem C6_counterexample :
    parseCSVRow (serializeField ['"']) = [['"', '"']] ∧ ¬(['"', '"'] = ['"']) ∧
      parseCSVRow (serializeField []) = [['"']] ∧ ¬((['"'] : Str) = []) := by
  refine ⟨by decide, by decide, by decide, by decide⟩

/-- C6 (amended): for every field value that is trimmed and contains at least
one non-quote character, the properly quoted encoding parses back to exactly
that value (embedded commas do not split, doubled quotes decode to one
literal quote, the enclosing quotes are stripped); the row splitter keeps any
properly quoted field — embedded newlines included — inside a single row; and
every field the field parser emits is trimmed of surrounding whitespace.
Field values consisting solely of quote characters (the counterexample) are
excluded. -/
theorem C6_quoted_fields :
    (∀ v : Str, trim v = v → (∃ c ∈ v, ¬(c = '"')) →
      parseCSVRow (serializeField v) = [v]) ∧
    (∀ v : Str, splitRows (serializeField v) = [serializeField v]) ∧
    (∀ r : Str, ∀ f ∈ parseCSVRow r, trim f = f) := by
  refine ⟨?_, ?_, ?_⟩
  · intro v htrim hex
    obtain ⟨c0, hc0mem, hc0⟩ := hex
    have htake : v.takeWhile (fun c => decide (c = '"')) =
        List.replicate (v.takeWhile (fun c => decide (c = '"'))).length '"' := by
      rw [List.eq_replicate_iff]
      refine ⟨rfl, ?_⟩
      intro b hb
      have := List.all_eq_true.mp (List.all_takeWhile (p := fun c => decide (c = '"'))) b hb
      exact decide_eq_true_eq.mp this
    have hvsplit : List.replicate (v.takeWhile (fun c => decide (c = '"'))).length '"' ++
        v.dropWhile (fun c => decide (c = '"')) = v := by
      rw [← htake]
      exact List.takeWhile_append_dropWhile _ _
    have hw : v.dropWhile (fun c => decide (c = '"')) ≠ [] := by
      intro hwnil
      rw [hwnil, List.append_nil] at hvsplit
      rw [← hvsplit] at hc0mem
      exact hc0 (List.eq_of_mem_replicate hc0mem)
    obtain ⟨cw, w', hwc⟩ := List.exists_cons_of_ne_nil hw
    have hcw : ¬(cw = '"') := by
      have hh2 : decide (cw = '"') = false :=
        head?_dropWhile_false (l := v) (by rw [hwc]; rfl)
      exact of_decide_eq_false hh2
    have hesc : escapeQuotes v =
        List.replicate (2 * (v.takeWhile (fun c => decide (c = '"'))).length) '"' ++
          escapeQuotes (v.dropWhile (fun c => decide (c = '"'))) := by
      calc escapeQuotes v
          = escapeQuotes (List.replicate
              (v.takeWhile (fun c => decide (c = '"'))).length '"' ++
              v.dropWhile (fun c => decide (c = '"'))) := by rw [hvsplit]
        _ = _ := by rw [escapeQuotes_append, escapeQuotes_replicate]
    unfold parseCSVRow serializeField
    rw [hesc, List.append_assoc]
    rw [parseCSVRowGo_openQuotes _ _ _ ?hh]
    case hh =>
      rw [hwc]
      rw [show escapeQuotes (cw :: w') = cw :: escapeQuotes w' from by
        rw [escapeQuotes, if_neg hcw]]
      rw [List.cons_append]
      intro hcontra
      exact hcw (Option.some.injEq _ _ ▸ hcontra)
    rw [parseCSVRowGo_escape, List.nil_append, hvsplit, htrim]
  · intro v
    unfold splitRows serializeField
    rw [splitRowsGo_quote]
    simp only [Bool.not_false]
    rw [splitRowsGo_escape]
    simp
  · intro r f hf
    exact parseCSVRowGo_trimmed r.length r (le_refl _) false [] f hf

/-- C6, witness. -/
theorem C6_witness :
    parseCSVRow (serializeField "a,\nb".data) = ["a,\nb".data] ∧
      trim "x".data = "x".data := by
  constructor
  · exact C6_quoted_fields.1 "a,\nb".data (by decide)
      ⟨'a', List.mem_cons_self 'a' _, by decide⟩
  · refine C6_quoted_fields.2.2 "\"x\"".data "x".data ?_
    rw [show parseCSVRow "\"x\"".data = ["x".data] from by decide]
    exact List.mem_singleton.mpr rfl

/-! ## C2 — composition of search with filter and category tags -/

unseal FAL.splitWs List.merge List.mergeSort Rat.add Rat.mul Rat.inv Rat.ofScientific in
/-- C2, counterexample: category tags do not narrow the search-narrowed list.
With the search `"rose"` active the narrowed list is `[demoRose]`, yet
`filterByCategory` for the `plush` tag returns `[demoTeddy]`, a product that
is not in the search-narrowed list: the category filter always starts from
the full catalog, ignoring the active search. -/
theorem C2_counterexample :
    performSearch demoCatalog "rose".data = [demoRose] ∧
    filterByCategory demoCatalog "plush".data = [demoTeddy] ∧
    demoTeddy ≠ demoRose := by decide

open List in
/-- C2 (amended): filter tags compose with search — with a non-empty query
`applyCurrentFilters` narrows the search-narrowed list, and with an empty
query it narrows the full catalog; category tags do not compose — the list
`filterByCategory` produces is always drawn from the full catalog,
independently of any search narrowing. -/
theorem C2_filter_composition :
    (∀ (allP narrowed : List Product) (term tag : Str), term ≠ [] →
      applyCurrentFilters allP narrowed term tag <+ narrowed) ∧
    (∀ (allP narrowed : List Product) (tag : Str),
      applyCurrentFilters allP narrowed [] tag <+ allP) ∧
    (∀ (allP : List Product) (cat : Str), filterByCategory allP cat <+ allP) := by
  refine ⟨?_, ?_, ?_⟩
  · intro allP narrowed term tag hterm
    show (if tag ≠ "all".data
        then ((if term = [] then allP else narrowed).filter (filterPredApp tag))
        else (if term = [] then allP else narrowed)) <+ narrowed
    rw [if_neg hterm]
    split
    · exact List.filter_sublist _
    · exact List.Sublist.refl _
  · intro allP narrowed tag
    show (if tag ≠ "all".data
        then ((if ([] : Str) = [] then allP else narrowed).filter (filterPredApp tag))
        else (if ([] : Str) = [] then allP else narrowed)) <+ allP
    rw [if_pos rfl]
    split
    · exact List.filter_sublist _
    · exact List.Sublist.refl _
  · intro allP cat
    unfold filterByCategory
    split
    · exact (List.take_sublist _ _).trans (List.filter_sublist _)
    · exact List.filter_sublist _

open List in
/-- C2, witness. -/
theorem C2_witness :
    applyCurrentFilters demoCatalog [demoRose] "rose".data "all".data <+ [demoRose] :=
  C2_filter_composition.1 demoCatalog [demoRose] "rose".data "all".data (by decide)

open List in
/-- C4: `fuzzyMatch` returns exactly one of the staged weights, tried in
order: 2 when the query is a (case-insensitive) substring of the field; else
1.5 when some whitespace-delimited word of the field starts with the query;
else 0 when the query has length ≥ 4; else 0.5 when the query's characters
appear in order (not necessarily contiguously) in the field; else 0. -/
theorem C4_fuzzyMatch_staged (s p : Str) :
    fuzzyMatch s p =
      if lowerStr p <:+: lowerStr s then 2
      else if ∃ w ∈ splitWs (lowerStr s), lowerStr p <+: w then 1.5
      else if 4 ≤ p.length then 0
      else if lowerStr p <+ lowerStr s then 0.5
      else 0 := by
  show (if strContains (lowerStr s) (lowerStr p) = true then (2 : ℚ)
    else if (splitWs (lowerStr s)).any (fun w => (lowerStr p).isPrefixOf w) = true then 1.5
    else if 4 ≤ (lowerStr p).length then 0
    else if subseqCheck (lowerStr s) (lowerStr p) = true then 0.5
    else 0) = _
  have hlen : (lowerStr p).length = p.length := by simp [lowerStr]
  by_cases h1 : lowerStr p <:+: lowerStr s
  · rw [if_pos (strContains_iff.mpr h1), if_pos h1]
  · rw [if_neg (fun hh => h1 (strContains_iff.mp hh)), if_neg h1]
    by_cases h2 : ∃ w ∈ splitWs (lowerStr s), lowerStr p <+: w
    · have hb : (splitWs (lowerStr s)).any (fun w => (lowerStr p).isPrefixOf w) = true := by
        rw [List.any_eq_true]
        obtain ⟨w, hw, hp⟩ := h2
        exact ⟨w, hw, List.isPrefixOf_iff_prefix.mpr hp⟩
      rw [if_pos hb, if_pos h2]
    · have hb : ¬((splitWs (lowerStr s)).any (fun w => (lowerStr p).isPrefixOf w) = true) := by
        rw [List.any_eq_true]
        rintro ⟨w, hw, hp⟩
        exact h2 ⟨w, hw, List.isPrefixOf_iff_prefix.mp hp⟩
      rw [if_neg hb, if_neg h2]
      by_cases h3 : 4 ≤ p.length
      · rw [if_pos (hlen ▸ h3), if_pos h3]
      · rw [if_neg (fun hh => h3 (hlen ▸ hh)), if_neg h3]
        by_cases h4 : lowerStr p <+ lowerStr s
        · rw [if_pos (subseqCheck_iff.mpr h4), if_pos h4]
        · rw [if_neg (fun hh => h4 (subseqCheck_iff.mp hh)), if_neg h4]

/-! ## C5 — search scoring, exclusion, ordering and stability -/

theorem fuzzyMatch_nonneg (s p : Str) : 0 ≤ fuzzyMatch s p := by
  show (0 : ℚ) ≤ if strContains (lowerStr s) (lowerStr p) = true then 2
    else if ((splitWs (lowerStr s)).any fun w => (lowerStr p).isPrefixOf w) = true then 1.5
    else if 4 ≤ (lowerStr p).length then 0
    else if subseqCheck (lowerStr s) (lowerStr p) = true then 0.5
    else 0
  split_ifs <;> norm_num

theorem le_foldl_max (l : List ℚ) : ∀ a : ℚ, a ≤ l.foldl max a := by
  induction l with
  | nil => intro a; exact le_refl a
  | cons x t ih => intro a; exact le_trans (le_max_left a x) (ih (max a x))

theorem mem_le_foldl_max (l : List ℚ) : ∀ (a : ℚ), ∀ y ∈ l, y ≤ l.foldl max a := by
  induction l with
  | nil => intro a y hy; exact absurd hy (List.not_mem_nil y)
  | cons x t ih =>
    intro a y hy
    rcases List.mem_cons.mp hy with h | h
    · subst h
      exact le_trans (le_max_right a y) (le_foldl_max t (max a y))
    · exact ih (max a x) y h

theorem foldl_max_attained (l : List ℚ) :
    ∀ a : ℚ, l.foldl max a = a ∨ ∃ x ∈ l, l.foldl max a = x := by
  induction l with
  | nil => intro a; exact Or.inl rfl
  | cons x t ih =>
    intro a
    rw [List.foldl_cons]
    rcases ih (max a x) with h | ⟨y, hy, he⟩
    · by_cases hax : a ≤ x
      · exact Or.inr ⟨x, List.mem_cons_self x t, by rw [h]; exact max_eq_right hax⟩
      · exact Or.inl (by rw [h]; exact max_eq_left (le_of_not_le hax))
    · exact Or.inr ⟨y, List.mem_cons_of_mem x hy, he⟩

/-- `reduce(max, 0)` over a non-empty list of non-negative scores is an
attained maximum. -/
theorem variants_max_spec {l : List ℚ} (hpos : ∀ x ∈ l, 0 ≤ x) (hne : l ≠ []) :
    ∃ x ∈ l, l.foldl max 0 = x ∧ ∀ y ∈ l, y ≤ x := by
  rcases foldl_max_attained l 0 with h | ⟨x, hx, he⟩
  · obtain ⟨x, hx⟩ := List.exists_mem_of_ne_nil l hne
    have h1 : x ≤ 0 := h ▸ mem_le_foldl_max l 0 x hx
    have h2 : 0 ≤ x := hpos x hx
    refine ⟨x, hx, by rw [h]; exact (le_antisymm h1 h2).symm, ?_⟩
    intro y hy
    exact le_trans (h ▸ mem_le_foldl_max l 0 y hy) h2
  · exact ⟨x, hx, he, fun y hy => he ▸ mem_le_foldl_max l 0 y hy⟩

theorem flPos_nonneg (a b : Nat) : 0 ≤ flPos a b := by
  unfold flPos
  dsimp only
  split
  · positivity
  · positivity

/-- Binary64 rounding preserves non-negativity. -/
theorem fl_nonneg {q : ℚ} (h : 0 ≤ q) : 0 ≤ fl q := by
  unfold fl
  by_cases h0 : q = 0
  · rw [if_pos h0]
  · rw [if_neg h0, if_pos (lt_of_le_of_ne h (Ne.symm h0))]
    exact flPos_nonneg _ _

theorem jsAdd_nonneg {x y : ℚ} (hx : 0 ≤ x) (hy : 0 ≤ y) : 0 ≤ jsAdd x y :=
  fl_nonneg (add_nonneg hx hy)

theorem jsMul_nonneg {x y : ℚ} (hx : 0 ≤ x) (hy : 0 ≤ y) : 0 ≤ jsMul x y :=
  fl_nonneg (mul_nonneg hx hy)

theorem jsMul_zero_left (y : ℚ) : jsMul 0 y = 0 := by
  unfold jsMul
  rw [zero_mul]
  unfold fl
  rw [if_pos rfl]

theorem totalScore_nonneg (p : Product) (q : Str) : 0 ≤ totalScore p q := by
  unfold totalScore
  refine jsAdd_nonneg (jsAdd_nonneg (jsAdd_nonneg (fuzzyMatch_nonneg _ _) ?_) ?_) ?_
  · exact jsMul_nonneg (fuzzyMatch_nonneg _ _) (fl_nonneg (by norm_num))
  · exact jsMul_nonneg (fuzzyMatch_nonneg _ _) (fl_nonneg (by norm_num))
  · exact jsMul_nonneg (le_foldl_max _ 0) (fl_nonneg (by norm_num))

unseal FAL.splitWs List.merge List.mergeSort Rat.add Rat.mul Rat.inv Rat.ofScientific in
/-- C5, counterexample: the specification's score formula read in exact
arithmetic misstates the tie behaviour.  Against the query `ws` both products
have the exact-arithmetic score 7/5, but the doubles the program computes
differ by one ulp (`0 + 2·0.7 + 0 + 0` gives 1.4 while
`0.5 + 0.5·0.7 + 0.5·0.5 + 0.5·0.6` gives 1.4000000000000001), so
`performSearch` orders the later catalog entry first instead of keeping the
catalog order the exact reading would require. -/
theorem C5_counterexample :
    totalScoreExact wsTeddy "ws".data = 7 / 5 ∧
    totalScoreExact wsWatch "ws".data = 7 / 5 ∧
    totalScore wsTeddy "ws".data = 3152519739159347 / 2251799813685248 ∧
    totalScore wsWatch "ws".data = 6305039478318695 / 4503599627370496 ∧
    totalScore wsTeddy "ws".data < totalScore wsWatch "ws".data ∧
    performSearch [wsTeddy, wsWatch] "ws".data = [wsWatch, wsTeddy] := by
  refine ⟨by decide, by decide, by decide, by decide, by decide, by decide⟩

open List in
/-- C5 (amended): the program computes scores in IEEE binary64 arithmetic,
not in exact arithmetic — with a non-empty query, `performSearch` keeps
exactly the products with positive (binary64) total score (score 0 is
excluded, and scores are never negative), returns them sorted by
non-increasing score, breaks exact-score ties by original catalog order, and
each product's score is the binary64 evaluation of
`name + 0.7·description + 0.5·category + 0.6·(max variant score, 0 when
there are no variants)` — each `+` and `*` rounded to nearest-even, the
weights being the doubles written 0.7, 0.5, 0.6. -/
theorem C5_performSearch_spec (cat : List Product) (q : Str) (hq : q ≠ []) :
    (performSearch cat q).Perm (cat.filter (fun p => decide (0 < totalScore p q))) ∧
    (performSearch cat q).Pairwise (fun a b => totalScore b q ≤ totalScore a q) ∧
    (∀ a b : Product, totalScore a q = totalScore b q →
      [a, b] <+ cat.filter (fun p => decide (0 < totalScore p q)) →
      [a, b] <+ performSearch cat q) ∧
    (∀ p : Product, 0 ≤ totalScore p q) ∧
    (∀ p : Product, p.variants = [] →
      totalScore p q = jsAdd (jsAdd (jsAdd (fuzzyMatch p.name q)
        (jsMul (fuzzyMatch p.description q) (fl 0.7)))
        (jsMul (fuzzyMatch p.category q) (fl 0.5))) 0) ∧
    (∀ p : Product, p.variants ≠ [] → ∃ v ∈ p.variants,
      (∀ w ∈ p.variants, fuzzyMatch w.name q ≤ fuzzyMatch v.name q) ∧
      totalScore p q = jsAdd (jsAdd (jsAdd (fuzzyMatch p.name q)
        (jsMul (fuzzyMatch p.description q) (fl 0.7)))
        (jsMul (fuzzyMatch p.category q) (fl 0.5)))
        (jsMul (fuzzyMatch v.name q) (fl 0.6))) := by
  have htrans : ∀ a b c : Product × ℚ,
      (fun a b : Product × ℚ => decide (b.2 ≤ a.2)) a b = true →
      (fun a b : Product × ℚ => decide (b.2 ≤ a.2)) b c = true →
      (fun a b : Product × ℚ => decide (b.2 ≤ a.2)) a c = true := by
    intro a b c hab hbc
    simp only [decide_eq_true_eq] at *
    exact le_trans hbc hab
  have htotal : ∀ a b : Product × ℚ,
      ((fun a b : Product × ℚ => decide (b.2 ≤ a.2)) a b ||
        (fun a b : Product × ℚ => decide (b.2 ≤ a.2)) b a) = true := by
    intro a b
    simp only [Bool.or_eq_true, decide_eq_true_eq]
    exact le_total b.2 a.2
  have hps : performSearch cat q =
      (((cat.filter (fun p => decide (0 < totalScore p q))).map
          (fun p => (p, totalScore p q))).mergeSort
          (fun a b => decide (b.2 ≤ a.2))).map Prod.fst := by
    unfold performSearch
    rw [if_neg hq, List.filter_map]
    rfl
  have hcancel : ∀ l : List Product,
      (l.map (fun p => (p, totalScore p q))).map Prod.fst = l := by
    intro l
    rw [List.map_map]
    exact List.map_id'' (fun x => rfl) l
  have hsnd : ∀ x ∈ ((cat.filter (fun p => decide (0 < totalScore p q))).map
      (fun p => (p, totalScore p q))).mergeSort (fun a b => decide (b.2 ≤ a.2)),
      x.2 = totalScore x.1 q := by
    intro x hx
    rw [List.mem_mergeSort] at hx
    obtain ⟨p, _, rfl⟩ := List.mem_map.mp hx
    rfl
  refine ⟨?_, ?_, ?_, fun p => totalScore_nonneg p q, ?_, ?_⟩
  · rw [hps]
    have hperm := (List.mergeSort_perm
      ((cat.filter (fun p => decide (0 < totalScore p q))).map
        (fun p => (p, totalScore p q))) (fun a b => decide (b.2 ≤ a.2))).map Prod.fst
    rw [hcancel] at hperm
    exact hperm
  · rw [hps, List.pairwise_map]
    have hsorted := List.sorted_mergeSort htrans htotal
      ((cat.filter (fun p => decide (0 < totalScore p q))).map
        (fun p => (p, totalScore p q)))
    refine hsorted.imp_of_mem ?_
    intro a b ha hb hab
    have h2 := decide_eq_true_eq.mp hab
    rw [hsnd a ha, hsnd b hb] at h2
    exact h2
  · intro a b heq hsub
    rw [hps]
    have hpairs : [(a, totalScore a q), (b, totalScore b q)] <+
        (cat.filter (fun p => decide (0 < totalScore p q))).map
          (fun p => (p, totalScore p q)) := by
      simpa using hsub.map (fun p => (p, totalScore p q))
    have hstab := List.sublist_mergeSort htrans htotal
      (List.pairwise_pair.mpr (by simp [heq])) hpairs
    simpa using hstab.map Prod.fst
  · intro p hv
    unfold totalScore
    rw [hv]
    show jsAdd (jsAdd (jsAdd (fuzzyMatch p.name q)
        (jsMul (fuzzyMatch p.description q) (fl 0.7)))
        (jsMul (fuzzyMatch p.category q) (fl 0.5))) (jsMul 0 (fl 0.6)) = _
    rw [jsMul_zero_left]
  · intro p hv
    have hne : p.variants.map (fun v => fuzzyMatch v.name q) ≠ [] := by
      simpa using hv
    have hpos : ∀ x ∈ p.variants.map (fun v => fuzzyMatch v.name q), 0 ≤ x := by
      intro x hx
      obtain ⟨v, _, rfl⟩ := List.mem_map.mp hx
      exact fuzzyMatch_nonneg _ _
    obtain ⟨x, hx, hfold, hbound⟩ := variants_max_spec hpos hne
    obtain ⟨v, hvmem, rfl⟩ := List.mem_map.mp hx
    refine ⟨v, hvmem, ?_, ?_⟩
    · intro w hw
      exact hbound _ (List.mem_map.mpr ⟨w, hw, rfl⟩)
    · unfold totalScore
      show jsAdd (jsAdd (jsAdd (fuzzyMatch p.name q)
          (jsMul (fuzzyMatch p.description q) (fl 0.7)))
          (jsMul (fuzzyMatch p.category q) (fl 0.5)))
          (jsMul ((p.variants.map (fun v => fuzzyMatch v.name q)).foldl
            (fun m sc => max m sc) 0) (fl 0.6)) = _
      rw [show (p.variants.map (fun v => fuzzyMatch v.name q)).foldl
            (fun m sc => max m sc) 0 = fuzzyMatch v.name q from hfold]

/-- C5, witness. -/
theorem C5_witness :
    (performSearch demoCatalog "rose".data).Perm
      (demoCatalog.filter (fun p => decide (0 < totalScore p "rose".data))) :=
  (C5_performSearch_spec demoCatalog "rose".data (by decide)).1

/-- C3, witness. -/
theorem C3_witness :
    0 ≤ parsePriceValueApp "₦3,000".data ∧
      0 ≤ (Variant.mk "Small".data "₦2,000".data 2000).priceValue := by
  constructor
  · exact C3_priceValue_nonneg.2.1 _ (by decide)
  · refine C3_priceValue_nonneg.2.2.1 "Small — ₦2,000".data _ ?_
    have hm : parseVariantsApp "Small — ₦2,000".data =
        [⟨"Small".data, "₦2,000".data, 2000⟩] := by decide
    rw [hm]
    exact List.mem_singleton.mpr rfl

/-! ## C10 — the two `parseVariants` implementations differ -/

/-- A self-trimmed string survives a whitespace `dropWhile` from either end. -/
theorem trimmed_dropWhile {s : Str} (h : trim s = s) :
    s.dropWhile isWs = s ∧ s.reverse.dropWhile isWs = s.reverse := by
  unfold trim at h
  have h1 : (((s.dropWhile isWs).reverse.dropWhile isWs).reverse).length = s.length := by
    rw [h]
  have h2 : ((s.dropWhile isWs).reverse.dropWhile isWs).length ≤
      (s.dropWhile isWs).reverse.length := (List.dropWhile_sublist _).length_le
  have h3 : (s.dropWhile isWs).length ≤ s.length := (List.dropWhile_sublist _).length_le
  rw [List.length_reverse] at h1
  rw [List.length_reverse] at h2
  have hds : s.dropWhile isWs = s :=
    (List.dropWhile_sublist _).eq_of_length (by omega)
  refine ⟨hds, ?_⟩
  rw [hds] at h
  have := congrArg List.reverse h
  simpa using this

/-- The head of a non-empty self-trimmed string is not whitespace. -/
theorem trimmed_head_not_ws {s : Str} (h : trim s = s) :
    ∀ c, s.head? = some c → isWs c = false := by
  intro c hc
  by_contra hw
  rw [Bool.not_eq_false] at hw
  cases s with
  | nil => cases hc
  | cons a t =>
    have hac : a = c := by simpa using hc
    subst hac
    have hds := (trimmed_dropWhile h).1
    rw [List.dropWhile_cons, if_pos hw] at hds
    have hle := (List.dropWhile_sublist (l := t) isWs).length_le
    rw [hds] at hle
    simp at hle

/-- The last character of a non-empty self-trimmed string is not whitespace. -/
theorem trimmed_last_not_ws {s : Str} (h : trim s = s) :
    ∀ c, s.getLast? = some c → isWs c = false := by
  intro c hc
  by_contra hw
  rw [Bool.not_eq_false] at hw
  have hr : s.reverse.head? = some c := by rw [List.head?_reverse]; exact hc
  have hds := (trimmed_dropWhile h).2
  cases hrev : s.reverse with
  | nil => rw [hrev] at hr; cases hr
  | cons a t =>
    rw [hrev] at hr hds
    have hac : a = c := by simpa using hr
    subst hac
    rw [List.dropWhile_cons, if_pos hw] at hds
    have hle := (List.dropWhile_sublist (l := t) isWs).length_le
    rw [hds] at hle
    simp at hle

/-- A non-whitespace character is not a line terminator. -/
theorem notNL_of_not_ws {c : Char} (h : isWs c = false) : notNL c = true := by
  unfold isWs at h
  unfold notNL
  simp only [Bool.or_eq_false_iff, decide_eq_false_iff_not] at h
  simp only [Bool.not_eq_true', Bool.or_eq_false_iff, decide_eq_false_iff_not]
  omega

/-- Splitting on a separator that never occurs returns the whole string. -/
theorem jsSplit_no_sep {sep : Char} {l : Str} (h : sep ∉ l) : jsSplit sep l = [l] := by
  induction l with
  | nil => rfl
  | cons c t ih =>
    have hc : ¬(c = sep) := fun hh => h (hh ▸ List.mem_cons_self c t)
    have ht : sep ∉ t := fun hh => h (List.mem_cons_of_mem _ hh)
    rw [jsSplit, if_neg hc, ih ht]

/-- The app tail matcher fails on any string without an em dash. -/
theorem appTail_none_of_no_dash {u : Str} (h : '—' ∉ u) : appTail u = none := by
  unfold appTail
  split
  · rfl
  · rename_i c r2 heq
    have hcm : c ∈ u.dropWhile isWs := by rw [heq]; exact List.mem_cons_self c r2
    have hcu : c ∈ u := (List.dropWhile_sublist _).subset hcm
    have hcd : ¬(c = '—') := fun he => h (he ▸ hcu)
    rw [if_neg hcd]

/-- The app lazy matcher fails on any string without an em dash. -/
theorem appLazy_none_no_dash {u : Str} (h : '—' ∉ u) : ∀ g1, appLazy g1 u = none := by
  induction u with
  | nil =>
    intro g1
    rw [appLazy, appTail_none_of_no_dash h]
  | cons c t ih =>
    intro g1
    rw [appLazy, appTail_none_of_no_dash h]
    show (if notNL c then appLazy (g1 ++ [c]) t else none) = none
    by_cases hc : notNL c = true
    · rw [if_pos hc]
      exact ih (fun hm => h (List.mem_cons_of_mem _ hm)) _
    · rw [if_neg hc]

/-- The app regexp finds no match in a string without an em dash. -/
theorem appSearch_none_no_dash {u : Str} (h : '—' ∉ u) : appSearch u = none := by
  induction u with
  | nil => rfl
  | cons c t ih =>
    have ht : '—' ∉ t := fun hm => h (List.mem_cons_of_mem _ hm)
    rw [appSearch]
    by_cases hc : notNL c = true
    · rw [if_pos hc, appLazy_none_no_dash ht [c]]
      exact ih ht
    · rw [if_neg hc]
      exact ih ht

/-- The app tail matcher skips a leading whitespace character. -/
theorem appTail_cons_ws (c : Char) (hc : isWs c = true) (z : Str) :
    appTail (c :: z) = appTail z := by
  unfold appTail
  rw [List.dropWhile_cons, if_pos hc]

/-- At the separator, the app tail matcher succeeds exactly on `₦`-led price
text, producing `₦` plus the digit/comma run. -/
theorem appTail_dash_some {ptext : Str} (hnf : nairaForm ptext = true) :
    appTail ('—' :: ' ' :: ptext) =
      some ('₦' :: (ptext.drop 1).takeWhile isDigitOrComma) := by
  cases ptext with
  | nil => simp [nairaForm] at hnf
  | cons p1 pr =>
    cases pr with
    | nil => simp [nairaForm] at hnf
    | cons p2 pr2 =>
      simp only [nairaForm, Bool.and_eq_true, decide_eq_true_eq] at hnf
      obtain ⟨h1, h2⟩ := hnf
      subst h1
      have htw : (p2 :: pr2).takeWhile isDigitOrComma =
          p2 :: pr2.takeWhile isDigitOrComma := by
        rw [List.takeWhile_cons, if_pos h2]
      show (if (p2 :: pr2).takeWhile isDigitOrComma = [] then none
            else some ('₦' :: (p2 :: pr2).takeWhile isDigitOrComma))
          = some ('₦' :: (p2 :: pr2).takeWhile isDigitOrComma)
      rw [htw]
      rw [if_neg (List.cons_ne_nil _ _)]

/-- At the separator, the app tail matcher fails on price text that is not of
the `₦`-digit form. -/
theorem appTail_dash_none {ptext : Str} (hne : ptext ≠ [])
    (hhead : ∀ c, ptext.head? = some c → isWs c = false)
    (hnf : nairaForm ptext = false) :
    appTail ('—' :: ' ' :: ptext) = none := by
  cases ptext with
  | nil => exact absurd rfl hne
  | cons p1 pr =>
    have h1 : isWs p1 = false := hhead p1 rfl
    have hdw : (p1 :: pr).dropWhile isWs = p1 :: pr := by
      rw [List.dropWhile_cons, if_neg (by simp [h1])]
    show (match (p1 :: pr).dropWhile isWs with
          | [] => none
          | c2 :: r4 =>
            if c2 = '₦' then
              if r4.takeWhile isDigitOrComma = [] then none
              else some ('₦' :: r4.takeWhile isDigitOrComma)
            else none) = none
    rw [hdw]
    show (if p1 = '₦' then
            (if pr.takeWhile isDigitOrComma = [] then none
             else some ('₦' :: pr.takeWhile isDigitOrComma))
          else none) = none
    by_cases hn : p1 = '₦'
    · rw [if_pos hn]
      cases pr with
      | nil => rfl
      | cons p2 pr2 =>
        subst hn
        have h2 : isDigitOrComma p2 = false := by
          simpa [nairaForm] using hnf
        have htw : (p2 :: pr2).takeWhile isDigitOrComma = [] := by
          rw [List.takeWhile_cons, if_neg (by simp [h2])]
        rw [htw, if_pos rfl]
    · rw [if_neg hn]

/-- The app tail matcher fails while still inside the variant name: the first
non-whitespace character it meets is a name character, not the em dash. -/
theorem appTail_text_prefix {w : Str} (hne : w ≠ [])
    (hlast : ∀ c, w.getLast? = some c → isWs c = false)
    (hdash : '—' ∉ w) (z : Str) : appTail (w ++ z) = none := by
  have hwd : w.dropWhile isWs ≠ [] := by
    intro hnil
    rw [List.dropWhile_eq_nil_iff] at hnil
    cases hgl : w.getLast? with
    | none => exact hne (List.getLast?_eq_none_iff.mp hgl)
    | some c =>
      obtain ⟨hne2, hx⟩ := List.mem_getLast?_eq_getLast (l := w) (x := c) hgl
      have hcw : c ∈ w := by rw [hx]; exact List.getLast_mem hne2
      exact absurd (hnil c hcw) (by simp [hlast c hgl])
  cases hd : w.dropWhile isWs with
  | nil => exact absurd hd hwd
  | cons c r2 =>
    have hcm : c ∈ w.dropWhile isWs := by rw [hd]; exact List.mem_cons_self c r2
    have hcu : c ∈ w := (List.dropWhile_sublist _).subset hcm
    have hcd : ¬(c = '—') := fun he => hdash (he ▸ hcu)
    have hdwz : (w ++ z).dropWhile isWs = c :: (r2 ++ z) := by
      rw [List.dropWhile_append, hd]
      rfl
    unfold appTail
    split
    · rfl
    · rename_i c' r2' heq
      rw [hdwz] at heq
      injection heq with hc1 hc2
      subst hc1
      rw [if_neg hcd]

/-- After the dash there is nothing the app lazy matcher can recover from:
dash-free non-naira price text yields no match at all. -/
theorem appLazy_dash_none {ptext : Str} (hne : ptext ≠ [])
    (hhead : ∀ c, ptext.head? = some c → isWs c = false)
    (hnf : nairaForm ptext = false) (hdf : '—' ∉ ptext) :
    ∀ g1, appLazy g1 ('—' :: ' ' :: ptext) = none := by
  intro g1
  rw [appLazy, appTail_dash_none hne hhead hnf]
  show (if notNL '—' then appLazy (g1 ++ ['—']) (' ' :: ptext) else none) = none
  rw [if_pos (by decide)]
  rw [appLazy, appTail_cons_ws ' ' (by decide) ptext, appTail_none_of_no_dash hdf]
  show (if notNL ' ' then appLazy ((g1 ++ ['—']) ++ [' ']) ptext else none) = none
  rw [if_pos (by decide)]
  exact appLazy_none_no_dash hdf _

/-- The app lazy matcher fails everywhere inside an entry whose price text is
dash-free and not of the `₦`-digit form. -/
theorem appLazy_entry_none {ptext : Str} (hne : ptext ≠ [])
    (hhead : ∀ c, ptext.head? = some c → isWs c = false)
    (hnf : nairaForm ptext = false) (hdf : '—' ∉ ptext) :
    ∀ (w : Str), '—' ∉ w → (∀ c ∈ w, notNL c = true) →
      (∀ c, w.getLast? = some c → isWs c = false) →
      ∀ g1, appLazy g1 (w ++ (' ' :: '—' :: ' ' :: ptext)) = none := by
  intro w
  induction w with
  | nil =>
    intro _ _ _ g1
    rw [List.nil_append]
    rw [appLazy, appTail_cons_ws ' ' (by decide) ('—' :: ' ' :: ptext),
      appTail_dash_none hne hhead hnf]
    show (if notNL ' ' then appLazy (g1 ++ [' ']) ('—' :: ' ' :: ptext) else none) = none
    rw [if_pos (by decide)]
    exact appLazy_dash_none hne hhead hnf hdf _
  | cons c w' ih =>
    intro hdw hnl hlast g1
    rw [List.cons_append, appLazy]
    rw [show appTail (c :: (w' ++ (' ' :: '—' :: ' ' :: ptext))) = none from by
      rw [← List.cons_append]
      exact appTail_text_prefix (List.cons_ne_nil c w') hlast hdw _]
    show (if notNL c then appLazy (g1 ++ [c]) (w' ++ (' ' :: '—' :: ' ' :: ptext))
          else none) = none
    rw [if_pos (hnl c (List.mem_cons_self c w'))]
    refine ih (fun hm => hdw (List.mem_cons_of_mem _ hm))
      (fun d hd => hnl d (List.mem_cons_of_mem _ hd)) ?_ _
    intro d hd
    apply hlast d
    cases w' with
    | nil => simp at hd
    | cons e w'' => rw [List.getLast?_cons_cons]; exact hd

/-- The app regexp finds no match in a well-formed entry whose price text is
dash-free and not of the `₦`-digit form. -/
theorem appSearch_entry_none {ptext : Str} (hne : ptext ≠ [])
    (hhead : ∀ c, ptext.head? = some c → isWs c = false)
    (hnf : nairaForm ptext = false) (hdf : '—' ∉ ptext) :
    ∀ (w : Str), '—' ∉ w → (∀ c ∈ w, notNL c = true) →
      (∀ c, w.getLast? = some c → isWs c = false) →
      appSearch (w ++ (' ' :: '—' :: ' ' :: ptext)) = none := by
  intro w
  induction w with
  | nil =>
    intro _ _ _
    rw [List.nil_append, appSearch]
    rw [show (if notNL ' ' then appLazy [' '] ('—' :: ' ' :: ptext) else none) = none from by
      rw [if_pos (by decide)]
      exact appLazy_dash_none hne hhead hnf hdf _]
    show appSearch ('—' :: ' ' :: ptext) = none
    rw [appSearch]
    rw [show (if notNL '—' then appLazy ['—'] (' ' :: ptext) else none) = none from by
      rw [if_pos (by decide)]
      rw [appLazy, appTail_cons_ws ' ' (by decide) ptext, appTail_none_of_no_dash hdf]
      show (if notNL ' ' then appLazy (['—'] ++ [' ']) ptext else none) = none
      rw [if_pos (by decide)]
      exact appLazy_none_no_dash hdf _]
    show appSearch (' ' :: ptext) = none
    rw [appSearch]
    rw [show (if notNL ' ' then appLazy [' '] ptext else none) = none from by
      rw [if_pos (by decide)]
      exact appLazy_none_no_dash hdf _]
    show appSearch ptext = none
    exact appSearch_none_no_dash hdf
  | cons c w' ih =>
    intro hdw hnl hlast
    have hdw' : '—' ∉ w' := fun hm => hdw (List.mem_cons_of_mem _ hm)
    have hnl' : ∀ d ∈ w', notNL d = true := fun d hd => hnl d (List.mem_cons_of_mem _ hd)
    have hlast' : ∀ d, w'.getLast? = some d → isWs d = false := by
      intro d hd
      apply hlast d
      cases w' with
      | nil => simp at hd
      | cons e w'' => rw [List.getLast?_cons_cons]; exact hd
    rw [List.cons_append, appSearch]
    rw [show (if notNL c then appLazy [c] (w' ++ (' ' :: '—' :: ' ' :: ptext)) else none)
          = none from by
      rw [if_pos (hnl c (List.mem_cons_self c w'))]
      exact appLazy_entry_none hne hhead hnf hdf w' hdw' hnl' hlast' [c]]
    show appSearch (w' ++ (' ' :: '—' :: ' ' :: ptext)) = none
    exact ih hdw' hnl' hlast'

/-- The app lazy matcher walks the whole name and succeeds at the separator
when the tail matcher accepts the price text. -/
theorem appLazy_entry_some {ptext g2 : Str}
    (htail : appTail ('—' :: ' ' :: ptext) = some g2) :
    ∀ (w : Str), '—' ∉ w → (∀ c ∈ w, notNL c = true) →
      (∀ c, w.getLast? = some c → isWs c = false) →
      ∀ g1, appLazy g1 (w ++ (' ' :: '—' :: ' ' :: ptext)) = some (g1 ++ w, g2) := by
  intro w
  induction w with
  | nil =>
    intro _ _ _ g1
    rw [List.nil_append, appLazy, appTail_cons_ws ' ' (by decide) ('—' :: ' ' :: ptext),
      htail]
    simp
  | cons c w' ih =>
    intro hdw hnl hlast g1
    have hdw' : '—' ∉ w' := fun hm => hdw (List.mem_cons_of_mem _ hm)
    have hnl' : ∀ d ∈ w', notNL d = true := fun d hd => hnl d (List.mem_cons_of_mem _ hd)
    have hlast' : ∀ d, w'.getLast? = some d → isWs d = false := by
      intro d hd
      apply hlast d
      cases w' with
      | nil => simp at hd
      | cons e w'' => rw [List.getLast?_cons_cons]; exact hd
    rw [List.cons_append, appLazy]
    rw [show appTail (c :: (w' ++ (' ' :: '—' :: ' ' :: ptext))) = none from by
      rw [← List.cons_append]
      exact appTail_text_prefix (List.cons_ne_nil c w') hlast hdw _]
    show (if notNL c then appLazy (g1 ++ [c]) (w' ++ (' ' :: '—' :: ' ' :: ptext))
          else none) = some (g1 ++ (c :: w'), g2)
    rw [if_pos (hnl c (List.mem_cons_self c w'))]
    rw [ih hdw' hnl' hlast' (g1 ++ [c])]
    simp

/-- The app regexp matches a well-formed entry at the very first character,
with group 1 the whole name. -/
theorem appSearch_entry_some {ptext g2 : Str}
    (htail : appTail ('—' :: ' ' :: ptext) = some g2) {name : Str}
    (hne : name ≠ []) (hdw : '—' ∉ name) (hnl : ∀ c ∈ name, notNL c = true)
    (hlast : ∀ c, name.getLast? = some c → isWs c = false) :
    appSearch (name ++ (' ' :: '—' :: ' ' :: ptext)) = some (name, g2) := by
  cases name with
  | nil => exact absurd rfl hne
  | cons c w' =>
    have hdw' : '—' ∉ w' := fun hm => hdw (List.mem_cons_of_mem _ hm)
    have hnl' : ∀ d ∈ w', notNL d = true := fun d hd => hnl d (List.mem_cons_of_mem _ hd)
    have hlast' : ∀ d, w'.getLast? = some d → isWs d = false := by
      intro d hd
      apply hlast d
      cases w' with
      | nil => simp at hd
      | cons e w'' => rw [List.getLast?_cons_cons]; exact hd
    rw [List.cons_append, appSearch]
    rw [show (if notNL c then appLazy [c] (w' ++ (' ' :: '—' :: ' ' :: ptext)) else none)
          = some ([c] ++ w', g2) from by
      rw [if_pos (hnl c (List.mem_cons_self c w'))]
      exact appLazy_entry_some htail w' hdw' hnl' hlast' [c]]
    rfl

/-- The staff tail matcher skips a leading whitespace character. -/
theorem staffTail_cons_ws (c : Char) (hc : isWs c = true) (z : Str) :
    staffTail (c :: z) = staffTail z := by
  unfold staffTail
  rw [List.dropWhile_cons, if_pos hc]

/-- At the separator, the staff tail matcher accepts any trimmed line-break
free price text, returning it whole. -/
theorem staffTail_dash {ptext : Str} (hne : ptext ≠ [])
    (hhead : ∀ c, ptext.head? = some c → isWs c = false)
    (hnl : ∀ c ∈ ptext, notNL c = true) :
    staffTail ('—' :: ' ' :: ptext) = some ptext := by
  cases ptext with
  | nil => exact absurd rfl hne
  | cons p1 pr =>
    have h1 : isWs p1 = false := hhead p1 rfl
    have htw : ((' ' :: p1 :: pr).takeWhile isWs).length = 1 := by
      rw [List.takeWhile_cons, if_pos (by decide), List.takeWhile_cons,
        if_neg (by simp [h1])]
      rfl
    show staffTailBack (' ' :: p1 :: pr) ((' ' :: p1 :: pr).takeWhile isWs).length
        = some (p1 :: pr)
    rw [htw]
    show (if notNL p1 then some (((' ' :: p1 :: pr).drop 1).takeWhile notNL)
          else staffTailBack (' ' :: p1 :: pr) 0) = some (p1 :: pr)
    rw [if_pos (hnl p1 (List.mem_cons_self p1 pr))]
    show some ((p1 :: pr).takeWhile notNL) = some (p1 :: pr)
    rw [takeWhile_eq_self_of_all hnl]

/-- The staff tail matcher also fails while still inside the variant name. -/
theorem staffTail_text_prefix {w : Str} (hne : w ≠ [])
    (hlast : ∀ c, w.getLast? = some c → isWs c = false)
    (hdash : '—' ∉ w) (z : Str) : staffTail (w ++ z) = none := by
  have hwd : w.dropWhile isWs ≠ [] := by
    intro hnil
    rw [List.dropWhile_eq_nil_iff] at hnil
    cases hgl : w.getLast? with
    | none => exact hne (List.getLast?_eq_none_iff.mp hgl)
    | some c =>
      obtain ⟨hne2, hx⟩ := List.mem_getLast?_eq_getLast (l := w) (x := c) hgl
      have hcw : c ∈ w := by rw [hx]; exact List.getLast_mem hne2
      exact absurd (hnil c hcw) (by simp [hlast c hgl])
  cases hd : w.dropWhile isWs with
  | nil => exact absurd hd hwd
  | cons c r2 =>
    have hcm : c ∈ w.dropWhile isWs := by rw [hd]; exact List.mem_cons_self c r2
    have hcu : c ∈ w := (List.dropWhile_sublist _).subset hcm
    have hcd : ¬(c = '—') := fun he => hdash (he ▸ hcu)
    have hdwz : (w ++ z).dropWhile isWs = c :: (r2 ++ z) := by
      rw [List.dropWhile_append, hd]
      rfl
    unfold staffTail
    split
    · rfl
    · rename_i c' r2' heq
      rw [hdwz] at heq
      injection heq with hc1 hc2
      subst hc1
      rw [if_neg hcd]

/-- The staff lazy matcher walks the whole name and succeeds at the
separator. -/
theorem staffLazy_entry_some {ptext g2 : Str}
    (htail : staffTail ('—' :: ' ' :: ptext) = some g2) :
    ∀ (w : Str), '—' ∉ w → (∀ c ∈ w, notNL c = true) →
      (∀ c, w.getLast? = some c → isWs c = false) →
      ∀ g1, staffLazy g1 (w ++ (' ' :: '—' :: ' ' :: ptext)) = some (g1 ++ w, g2) := by
  intro w
  induction w with
  | nil =>
    intro _ _ _ g1
    rw [List.nil_append, staffLazy,
      staffTail_cons_ws ' ' (by decide) ('—' :: ' ' :: ptext), htail]
    simp
  | cons c w' ih =>
    intro hdw hnl hlast g1
    have hdw' : '—' ∉ w' := fun hm => hdw (List.mem_cons_of_mem _ hm)
    have hnl' : ∀ d ∈ w', notNL d = true := fun d hd => hnl d (List.mem_cons_of_mem _ hd)
    have hlast' : ∀ d, w'.getLast? = some d → isWs d = false := by
      intro d hd
      apply hlast d
      cases w' with
      | nil => simp at hd
      | cons e w'' => rw [List.getLast?_cons_cons]; exact hd
    rw [List.cons_append, staffLazy]
    rw [show staffTail (c :: (w' ++ (' ' :: '—' :: ' ' :: ptext))) = none from by
      rw [← List.cons_append]
      exact staffTail_text_prefix (List.cons_ne_nil c w') hlast hdw _]
    show (if notNL c then staffLazy (g1 ++ [c]) (w' ++ (' ' :: '—' :: ' ' :: ptext))
          else none) = some (g1 ++ (c :: w'), g2)
    rw [if_pos (hnl c (List.mem_cons_self c w'))]
    rw [ih hdw' hnl' hlast' (g1 ++ [c])]
    simp

/-- The staff regexp matches a well-formed entry at the very first character,
with group 1 the whole name. -/
theorem staffSearch_entry_some {ptext g2 : Str}
    (htail : staffTail ('—' :: ' ' :: ptext) = some g2) {name : Str}
    (hne : name ≠ []) (hdw : '—' ∉ name) (hnl : ∀ c ∈ name, notNL c = true)
    (hlast : ∀ c, name.getLast? = some c → isWs c = false) :
    staffSearch (name ++ (' ' :: '—' :: ' ' :: ptext)) = some (name, g2) := by
  cases name with
  | nil => exact absurd rfl hne
  | cons c w' =>
    have hdw' : '—' ∉ w' := fun hm => hdw (List.mem_cons_of_mem _ hm)
    have hnl' : ∀ d ∈ w', notNL d = true := fun d hd => hnl d (List.mem_cons_of_mem _ hd)
    have hlast' : ∀ d, w'.getLast? = some d → isWs d = false := by
      intro d hd
      apply hlast d
      cases w' with
      | nil => simp at hd
      | cons e w'' => rw [List.getLast?_cons_cons]; exact hd
    rw [List.cons_append, staffSearch]
    rw [show (if notNL c then staffLazy [c] (w' ++ (' ' :: '—' :: ' ' :: ptext)) else none)
          = some ([c] ++ w', g2) from by
      rw [if_pos (hnl c (List.mem_cons_self c w'))]
      exact staffLazy_entry_some htail w' hdw' hnl' hlast' [c]]
    rfl

/-- An entry has a non-whitespace character, so it does not trim away. -/
theorem trim_dashEntry_ne_nil (name ptext : Str) : trim (dashEntry name ptext) ≠ [] := by
  intro h
  rw [trim_eq_nil_iff] at h
  have hm : '—' ∈ dashEntry name ptext := by
    unfold dashEntry
    exact List.mem_append_right _ (by simp)
  exact absurd (h '—' hm) (by decide)

/-- An entry made of pipe-free pieces is pipe-free. -/
theorem pipe_not_mem_dashEntry {name ptext : Str} (hn : '|' ∉ name)
    (hp : '|' ∉ ptext) : '|' ∉ dashEntry name ptext := by
  intro h
  unfold dashEntry at h
  rcases List.mem_append.mp h with h | h
  · exact hn h
  · simp only [List.mem_cons] at h
    rcases h with h | h | h | h
    · exact absurd h (by decide)
    · exact absurd h (by decide)
    · exact absurd h (by decide)
    · exact hp h

/-- The staff parser keeps a well-formed entry whatever the price text is. -/
theorem parseVariantsStaff_entry {name ptext : Str}
    (hne : name ≠ []) (htn : trim name = name) (hdash : '—' ∉ name)
    (hnl : ∀ c ∈ name, notNL c = true) (hpn : '|' ∉ name)
    (hpne : ptext ≠ []) (htp : trim ptext = ptext)
    (hpnl : ∀ c ∈ ptext, notNL c = true) (hpp : '|' ∉ ptext) :
    parseVariantsStaff (dashEntry name ptext) = [⟨name, ptext, specPrice ptext⟩] := by
  have hsearch : staffSearch (dashEntry name ptext) = some (name, ptext) := by
    unfold dashEntry
    exact staffSearch_entry_some
      (staffTail_dash hpne (trimmed_head_not_ws htp) hpnl)
      hne hdash hnl (trimmed_last_not_ws htn)
  unfold parseVariantsStaff
  rw [if_neg (trim_dashEntry_ne_nil name ptext),
    jsSplit_no_sep (pipe_not_mem_dashEntry hpn hpp)]
  simp [hsearch]
  rw [htn, htp, parsePriceValueStaff_eq_spec]
  exact ⟨rfl, rfl, rfl⟩

/-- The app parser keeps a well-formed entry whose price text has the
`₦`-digit form, recording `₦` plus the digit/comma run as the price. -/
theorem parseVariantsApp_entry_naira {name ptext : Str}
    (hne : name ≠ []) (htn : trim name = name) (hdash : '—' ∉ name)
    (hnl : ∀ c ∈ name, notNL c = true) (hpn : '|' ∉ name)
    (hnf : nairaForm ptext = true) (hpp : '|' ∉ ptext) :
    parseVariantsApp (dashEntry name ptext) =
      [⟨trim name, trim ('₦' :: (ptext.drop 1).takeWhile isDigitOrComma),
        parsePriceValueApp ('₦' :: (ptext.drop 1).takeWhile isDigitOrComma)⟩] := by
  have hsearch : appSearch (dashEntry name ptext) =
      some (name, '₦' :: (ptext.drop 1).takeWhile isDigitOrComma) := by
    unfold dashEntry
    exact appSearch_entry_some (appTail_dash_some hnf) hne hdash hnl
      (trimmed_last_not_ws htn)
  unfold parseVariantsApp
  rw [if_neg (trim_dashEntry_ne_nil name ptext),
    jsSplit_no_sep (pipe_not_mem_dashEntry hpn hpp)]
  simp [hsearch]

/-- The app parser drops a well-formed entry whose dash-free price text lacks
the `₦`-digit form. -/
theorem parseVariantsApp_entry_none {name ptext : Str}
    (hne : name ≠ []) (htn : trim name = name) (hdash : '—' ∉ name)
    (hnl : ∀ c ∈ name, notNL c = true) (hpn : '|' ∉ name)
    (hpne : ptext ≠ []) (htp : trim ptext = ptext)
    (hnf : nairaForm ptext = false) (hdf : '—' ∉ ptext) (hpp : '|' ∉ ptext) :
    parseVariantsApp (dashEntry name ptext) = [] := by
  have hsearch : appSearch (dashEntry name ptext) = none := by
    unfold dashEntry
    exact appSearch_entry_none hpne (trimmed_head_not_ws htp) hnf hdf name hdash hnl
      (trimmed_last_not_ws htn)
  unfold parseVariantsApp
  rw [if_neg (trim_dashEntry_ne_nil name ptext),
    jsSplit_no_sep (pipe_not_mem_dashEntry hpn hpp)]
  simp [hsearch]

/-- C10: the two `parseVariants` implementations are not extensionally equal.
Concretely, the staff parser keeps the entry `Large — $50` (as the variant
`(Large, $50, 50)`) while the app parser drops it.  In general, over
well-formed entries `name — ptext` (name and price text non-empty, trimmed,
line-break free, pipe-free, with no em dash in the name): the staff parser
always produces the single variant `(name, ptext, specPrice ptext)`; the app
parser, when the price text contains no em dash of its own, produces a
variant exactly when the price text starts with `₦` followed by a digit or
comma; and on price text of the full `₦`-digits/commas form both parsers
produce the identical variant `(name, ptext, specPrice ptext)`. -/
theorem C10_parseVariants_divergence :
    (parseVariantsStaff "Large — $50".data =
        [⟨"Large".data, "$50".data, 50⟩] ∧
      parseVariantsApp "Large — $50".data = []) ∧
    (∀ name ptext : Str,
      name ≠ [] → trim name = name → '—' ∉ name →
      (∀ c ∈ name, notNL c = true) → '|' ∉ name →
      ptext ≠ [] → trim ptext = ptext →
      (∀ c ∈ ptext, notNL c = true) → '|' ∉ ptext →
      parseVariantsStaff (dashEntry name ptext) = [⟨name, ptext, specPrice ptext⟩] ∧
      ('—' ∉ ptext →
        (parseVariantsApp (dashEntry name ptext) ≠ [] ↔ nairaForm ptext = true)) ∧
      (∀ ds : Str, ptext = '₦' :: ds → ds ≠ [] →
        (∀ c ∈ ds, isDigitOrComma c = true) →
        parseVariantsApp (dashEntry name ptext) = [⟨name, ptext, specPrice ptext⟩])) := by
  refine ⟨⟨by decide, by decide⟩, ?_⟩
  intro name ptext hne htn hdash hnl hpn hpne htp hpnl hpp
  refine ⟨parseVariantsStaff_entry hne htn hdash hnl hpn hpne htp hpnl hpp, ?_, ?_⟩
  · intro hdf
    constructor
    · intro hne2
      by_contra hnf
      rw [Bool.not_eq_true] at hnf
      exact hne2 (parseVariantsApp_entry_none hne htn hdash hnl hpn hpne htp hnf hdf hpp)
    · intro hnf
      rw [parseVariantsApp_entry_naira hne htn hdash hnl hpn hnf hpp]
      simp
  · intro ds hds hdsne hall
    subst hds
    have hnf : nairaForm ('₦' :: ds) = true := by
      cases ds with
      | nil => exact absurd rfl hdsne
      | cons d ds' => simp [nairaForm, hall d (List.mem_cons_self d ds')]
    rw [parseVariantsApp_entry_naira hne htn hdash hnl hpn hnf hpp]
    have hdt : (('₦' :: ds).drop 1).takeWhile isDigitOrComma = ds := by
      show ds.takeWhile isDigitOrComma = ds
      exact takeWhile_eq_self_of_all hall
    have hchars : ∀ c ∈ ('₦' :: ds), c = '₦' ∨ c = ',' ∨ isDigitC c = true := by
      intro c hc
      rcases List.mem_cons.mp hc with h | h
      · exact Or.inl h
      · have hdc := hall c h
        simp only [isDigitOrComma, Bool.or_eq_true, decide_eq_true_eq] at hdc
        rcases hdc with h1 | h1
        · exact Or.inr (Or.inr h1)
        · exact Or.inr (Or.inl h1)
    rw [hdt, htn, htp, parsePriceValueApp_eq_spec_of_chars hchars]

/-- C10, witness. -/
theorem C10_witness :
    parseVariantsStaff (dashEntry "Small".data "₦2,000".data)
        = [⟨"Small".data, "₦2,000".data, specPrice "₦2,000".data⟩] ∧
    parseVariantsApp (dashEntry "Small".data "₦2,000".data)
        = [⟨"Small".data, "₦2,000".data, specPrice "₦2,000".data⟩] ∧
    (parseVariantsApp (dashEntry "Small".data "$9".data) ≠ [] ↔
      nairaForm "$9".data = true) := by
  have h1 := C10_parseVariants_divergence.2 "Small".data "₦2,000".data (by decide)
    (by decide) (by decide) (by decide) (by decide) (by decide) (by decide)
    (by decide) (by decide)
  have h2 := C10_parseVariants_divergence.2 "Small".data "$9".data (by decide)
    (by decide) (by decide) (by decide) (by decide) (by decide) (by decide)
    (by decide) (by decide)
  exact ⟨h1.1, h1.2.2 "2,000".data (by decide) (by decide) (by decide),
    h2.2.1 (by decide)⟩

end FAL
